import Mathlib

/-!
# Verification of the AI84 checkpoint converter and training loop

A shallow embedding of `src/ai84ize.py` (the checkpoint → fixed-point
converter) and of the epoch loop / score history of `src/train.py`.

Modelling conventions:

* A tensor is a `List (List ℚ)`: a list of slices along dimension 0, each
  slice flattened to its list of elements.  Exact rationals stand in for
  the host library's floating point numbers.
* A state-dict key is the list of its dot-separated components
  (`"fc.weight"` becomes `["fc", "weight"]`); joining with `"."` is a
  bijection onto the dot-free-component strings Python manipulates, and the
  `split` / `rsplit` calls of the source become list operations.
* Dictionaries are insertion-ordered association lists, as in Python:
  setting an existing key updates it in place, setting a fresh key appends,
  `del` removes, and iteration follows insertion order.
* Python exceptions are modelled with `Except PyErr`.
* Three externals that the repository imports but whose code is not under
  `src/` are parameters of `Args`:
  `weight_bits` (the constant `ai84.WEIGHT_BITS`),
  `pow2_round` (`range_linear_ai84.pow2_round`), and
  `sqrt` (the host library's square root used by `torch.std`).
  Every theorem below holds for all values of these parameters.
-/

namespace Ai84ize

/-! ## Tensors -/

/-- A tensor: a list of dimension-0 slices, each given by its elements. -/
abbrev Tensor := List (List ℚ)

/-- All elements, in order (the flattened view of the tensor). -/
def flat : Tensor → List ℚ
  | [] => []
  | r :: t => r ++ flat t

/-- `t.min()`: the smallest element; `none` models the `torch` error on an
empty tensor. -/
def tmin (t : Tensor) : Option ℚ := (flat t).min?

/-- `t.max()`. -/
def tmax (t : Tensor) : Option ℚ := (flat t).max?

/-- `t.numel()`. -/
def numel (t : Tensor) : ℕ := (flat t).length

/-- Sum of all elements. -/
def tsum (t : Tensor) : ℚ := (flat t).sum

/-- `t.mean()`: `none` models the undefined mean of an empty tensor. -/
def tmean (t : Tensor) : Option ℚ :=
  if numel t = 0 then none else some (tsum t / numel t)

/-- `t.std()`: the Bessel-corrected sample standard deviation,
`sqrt (Σ (x - mean)² / (n - 1))`, with `sq` the host square root;
`none` models the undefined result for fewer than two elements. -/
def tstd (sq : ℚ → ℚ) (t : Tensor) : Option ℚ :=
  match tmean t with
  | none => none
  | some m =>
    if numel t ≤ 1 then none
    else some (sq (((flat t).map (fun x => (x - m) ^ 2)).sum / (numel t - 1)))

/-- Elementwise map. -/
def tmap (f : ℚ → ℚ) (t : Tensor) : Tensor := t.map (List.map f)

/-- `t.clamp(min=lo, max=hi)`. -/
def clampT (lo hi : ℚ) (t : Tensor) : Tensor :=
  tmap (fun x => min (max x lo) hi) t

/-- `t.round()`, elementwise round-to-nearest. -/
def roundT (t : Tensor) : Tensor := tmap (fun x => (round x : ℚ)) t

/-- `t.nonzero().numel() != 0`: does the tensor hold a nonzero element? -/
def hasNonzero (t : Tensor) : Bool := (flat t).any (fun x => !(x == 0))

/-- Extract the value of a zero-dimensional (scalar) tensor. -/
def asScalar : Tensor → Option ℚ
  | [[x]] => some x
  | _ => none

/-- `mapM` over `Option`, written recursively for easy unfolding. -/
def omap {α β : Type} (f : α → Option β) : List α → Option (List β)
  | [] => some []
  | a :: l =>
    match f a with
    | none => none
    | some b =>
      match omap f l with
      | none => none
      | some bs => some (b :: bs)

/-! ## Saturation statistics (src/ai84ize.py lines 51-82) -/

/-- `avg_max` (lines 51-56): view the tensor as `(shape[0], -1)`, take the
per-slice minima and maxima, and return
`max |mean of minima| |mean of maxima|`. -/
def avg_max (t : Tensor) : Option ℚ :=
  match omap List.min? t with
  | none => none
  | some mins =>
    match omap List.max? t with
    | none => none
    | some maxs =>
      if t.length = 0 then none
      else some (max |mins.sum / t.length| |maxs.sum / t.length|)

/-- `max_max` (lines 58-59): `max |t.min()| |t.max()|`. -/
def max_max (t : Tensor) : Option ℚ :=
  match tmin t with
  | none => none
  | some mn =>
    match tmax t with
    | none => none
    | some mx => some (max |mn| |mx|)

/-- `mean_n_stds_max_abs` (lines 61-67). -/
def mean_n_stds_max_abs (sq : ℚ → ℚ) (t : Tensor) (n_stds : ℤ) : Option ℚ :=
  if n_stds ≤ 0 then none
  else
    match tmean t with
    | none => none
    | some mean =>
      match tstd sq t with
      | none => none
      | some std =>
        match tmin t with
        | none => none
        | some mn =>
          match tmax t with
          | none => none
          | some mx =>
            let min_val := max mn (mean - n_stds * std)
            let max_val := min mx (mean + n_stds * std)
            some (max |min_val| |max_val|)

/-- The magic scale constant of `get_const` (line 70). -/
def magic_scale : ℚ := 6372803137 / 10000000000

/-- `get_const` (lines 69-70). -/
def get_const (_ : Tensor) : Option ℚ := some magic_scale

/-- `--clip-mode` choices (line 157-159). -/
inductive ClipMode where
  | STD
  | MAX
  | AVGMAX
  | SCALE
deriving DecidableEq, Repr

/-- The `sat_fn` dispatch (lines 74-81): `STD` uses
`mean_n_stds_max_abs` with `n_stds=2`, `MAX` uses `max_max`,
`AVGMAX` uses `avg_max`, and the default `SCALE` uses `get_const`. -/
def sat_fn (cm : ClipMode) (sq : ℚ → ℚ) : Tensor → Option ℚ :=
  match cm with
  | .STD => fun t => mean_n_stds_max_abs sq t 2
  | .MAX => max_max
  | .AVGMAX => avg_max
  | .SCALE => get_const

/-- `fc_sat_fn = get_const` (line 82), independent of `--clip-mode`. -/
def fc_sat_fn : Tensor → Option ℚ := get_const

/-! ## Keys and dictionaries -/

/-- A state-dict key: its dot-separated components. -/
abbrev Key := List String

/-- `k.rsplit(sep='.', maxsplit=1)` unpacked into two names: `none` models
the `ValueError` Python raises when the key has a single component. -/
def rsplit1 (k : Key) : Option (Key × String) :=
  match k.reverse with
  | [] => none
  | [_] => none
  | last :: init => some (init.reverse, last)

/-- `k.split(sep='.', maxsplit=1)` unpacked into two names. -/
def split1 : Key → Option (String × Key)
  | [] => none
  | [_] => none
  | c :: rest => some (c, rest)

/-- The last dot-separated component of a key. -/
def lastComp (k : Key) : Option String := k.getLast?

/-- `parameter[0] + '_scale'` (line 116/118). -/
def scaleSuffix (parameter : String) : String := parameter.take 1 ++ "_scale"

/-- Modelled Python exceptions. -/
inductive PyErr where
  | runtimeError (msg : String)
  | valueError (msg : String)
  | keyError
  | attributeError
deriving DecidableEq, Repr

section AssocList

variable {κ α : Type} [DecidableEq κ]

/-- Dictionary lookup (`d[k]` read / `in` test). -/
def alget (k : κ) : List (κ × α) → Option α
  | [] => none
  | (k', v) :: l => if k' = k then some v else alget k l

/-- Remove every binding of `k` (simple form of `del d[k]`). -/
def alerase (k : κ) : List (κ × α) → List (κ × α)
  | [] => []
  | (k', v) :: l => if k' = k then alerase k l else (k', v) :: alerase k l

/-- `d[k] = v`: update in place if present, append if fresh. -/
def alset (k : κ) (v : α) : List (κ × α) → List (κ × α)
  | [] => [(k, v)]
  | (k', v') :: l => if k' = k then (k, v) :: l else (k', v') :: alset k v l

/-- `del d[k]`: `KeyError` when the key is absent. -/
def aldel (k : κ) (l : List (κ × α)) : Except PyErr (List (κ × α)) :=
  if (alget k l).isSome then .ok (alerase k l) else .error .keyError

@[simp] theorem alget_alerase (k x : κ) (l : List (κ × α)) :
    alget x (alerase k l) = if x = k then none else alget x l := by
  induction l with
  | nil => simp [alget, alerase]
  | cons e l ih =>
    obtain ⟨k', v⟩ := e
    by_cases h1 : k' = k <;> by_cases h2 : k' = x <;> subst_eqs <;>
      simp_all [alget, alerase, eq_comm]

@[simp] theorem alget_alset (k x : κ) (v : α) (l : List (κ × α)) :
    alget x (alset k v l) = if x = k then some v else alget x l := by
  induction l with
  | nil => simp [alget, alset, eq_comm]
  | cons e l ih =>
    obtain ⟨k', v'⟩ := e
    by_cases h1 : k' = k <;> by_cases h2 : k' = x <;> subst_eqs <;>
      simp_all [alget, alset, eq_comm]

theorem aldel_ok {k : κ} {l l' : List (κ × α)} (h : aldel k l = .ok l') :
    l' = alerase k l := by
  unfold aldel at h
  split at h
  · exact (Except.ok.inj h).symm
  · exact absurd h (by simp)

end AssocList

/-! ## The converter (src/ai84ize.py) -/

/-- A state dict: insertion-ordered map from keys to tensors. -/
abbrev StateDict := List (Key × Tensor)

/-- Constants from src/ai84ize.py lines 19-23. -/
def CONV_SCALE_BITS : ℕ := 8

def CONV_WEIGHT_BITS : ℕ := 5

def FC_SCALE_BITS : ℕ := 8

def FC_WEIGHT_BITS : ℕ := 8

def FC_CLAMP_BITS : ℕ := 16

/-- The command-line arguments of `ai84ize.py`, together with the three
externals whose code is not under `src/` (`ai84.WEIGHT_BITS`,
`range_linear_ai84.pow2_round`, and the host square root used by
`torch.std`); all theorems hold for every value of those parameters. -/
structure Args where
  embedded : Bool
  quantized : Bool
  verbose : Bool
  clip_mode : ClipMode
  weight_bits : ℕ
  sqrt : ℚ → ℚ
  pow2_round : ℚ → ℕ → ℚ

/-- One iteration of the key loop of `convert_checkpoint`
(src/ai84ize.py lines 84-135).  `cs` is the original `checkpoint_state`
(all reads go to it), `new` is `new_checkpoint_state`, and `k` the key
being visited. -/
def step (A : Args) (cs : StateDict) (new : StateDict) (k : Key) :
    Except PyErr StateDict :=
  match rsplit1 k with
  | none => .error (.valueError "not enough values to unpack")
  | some (operation, parameter) =>
    if parameter = "w_zero_point" ∨ parameter = "b_zero_point" then
      match alget k cs with
      | none => .error .keyError
      | some t =>
        if hasNonzero t then .error (.runtimeError "Parameter is not zero.")
        else aldel k new
    else if parameter = "weight" ∨ parameter = "bias" then
      if !A.quantized then
        match split1 k with
        | none => .error (.valueError "not enough values to unpack")
        | some (module, _) =>
          let clamp_bits := if module ≠ "fc" then A.weight_bits else FC_CLAMP_BITS
          match alget k cs with
          | none => .error .keyError
          | some t =>
            match (if module ≠ "fc" then sat_fn A.clip_mode A.sqrt t
                   else fc_sat_fn t) with
            | none => .error (.runtimeError "tensor statistic undefined")
            | some s =>
              let factor : ℚ := 2 ^ (clamp_bits - 1) * s
              -- `if args.verbose:` also evaluates `avg_max` and `max_max`
              match (if A.verbose then
                       match avg_max t, max_max t, tmean t with
                       | some _, some _, some _ => some ()
                       | _, _, _ => none
                     else some ()) with
              | none => .error (.runtimeError "tensor statistic undefined")
              | some _ =>
                let weights := tmap (fun x => factor * x) t
                let weights := roundT (clampT (-(2 ^ (clamp_bits - 1)))
                  (2 ^ (clamp_bits - 1) - 1) weights)
                .ok (alset k weights new)
      else
        match rsplit1 operation with
        | none => .error (.valueError "not enough values to unpack")
        | some (module, st) =>
          if st = "wrapped_module" then
            let scale := module ++ [scaleSuffix parameter]
            match alget k cs with
            | none => .error .keyError
            | some t =>
              let p := if module ≠ ["fc"] then (CONV_SCALE_BITS, A.weight_bits)
                       else (FC_SCALE_BITS, FC_CLAMP_BITS)
              let scale_bits := p.1
              let clamp_bits := p.2
              match alget scale cs with
              | none => .error .keyError
              | some fpt =>
                match asScalar fpt with
                | none => .error (.runtimeError "scale is not a scalar")
                | some fp_scale =>
                  let weights :=
                    if ¬ module = ["fc"] then
                      tmap (fun x => x * A.pow2_round fp_scale scale_bits) t
                    else roundT (tmap (fun x => x * fp_scale) t)
                  let weights := roundT (clampT (-(2 ^ (clamp_bits - 1)))
                    (2 ^ (clamp_bits - 1) - 1) weights)
                  match aldel k (alset (module ++ [parameter]) weights new) with
                  | .error e => .error e
                  | .ok new' => aldel scale new'
          else .ok new
    else if parameter = "base_b_q" then aldel k new
    else .ok new

/-- The loop of lines 84-135: fold `step` over the keys of
`checkpoint_state`, starting from its copy. -/
def convert_state_dict (A : Args) (cs : StateDict) : Except PyErr StateDict :=
  List.foldlM (step A cs) cs (cs.map Prod.fst)

/-- A top-level checkpoint entry: the state dict, or any other payload
(optimizer state, metadata, ...) represented opaquely. -/
inductive CVal where
  | dict (d : StateDict)
  | blob (n : ℕ)
deriving DecidableEq

/-- A checkpoint: insertion-ordered map of top-level entries. -/
abbrev Checkpoint := List (String × CVal)

/-- The result of the converter: a rewritten checkpoint file, or (with
`--embedded`) the `#define` lines printed to stdout, one per key, paired
with the printed tensor. -/
inductive ConvOut where
  | file (c : Checkpoint)
  | printed (lines : List (String × Tensor))
deriving DecidableEq

/-- `k.replace(".", "_").upper()` on the joined key (line 143). -/
def defineName (k : Key) : String :=
  ((String.intercalate "." k).replace "." "_").toUpper

/-- `convert_checkpoint` (src/ai84ize.py lines 26-144), with file and
stdout I/O reified into `ConvOut`. -/
def convert_checkpoint (A : Args) (checkpoint : Checkpoint) :
    Except PyErr ConvOut :=
  match (if A.quantized then
           match alget "quantizer_metadata" checkpoint with
           | none => .error (.runtimeError "No quantizer_metadata in checkpoint file.")
           | some _ => .ok (alerase "quantizer_metadata" checkpoint)
         else .ok checkpoint : Except PyErr Checkpoint) with
  | .error e => .error e
  | .ok checkpoint =>
    match alget "state_dict" checkpoint with
    | none => .error (.runtimeError "No state_dict in checkpoint file.")
    | some (.blob _) => .error .attributeError
    | some (.dict checkpoint_state) =>
      match convert_state_dict A checkpoint_state with
      | .error e => .error e
      | .ok new_checkpoint_state =>
        if !A.embedded then
          .ok (.file (alset "state_dict" (.dict new_checkpoint_state) checkpoint))
        else
          .ok (.printed (new_checkpoint_state.map
            (fun e => (defineName e.1, e.2))))

/-! ## Acc-independent characterization of `step`

`step A cs new k` reads tensors only from `cs`; its effect on `new` is a
sequence of writes/deletes at keys computed from `A`, `cs`, `k`.  `redStep`
describes the effect on a single lookup. -/

/-- The value stored for a weight/bias key in the non-quantized path
(lines 90-111), as a partial function of the original state. -/
def transformNQ (A : Args) (cs : StateDict) (k : Key) : Option Tensor :=
  match split1 k with
  | none => none
  | some (module, _) =>
    let clamp_bits := if module ≠ "fc" then A.weight_bits else FC_CLAMP_BITS
    match alget k cs with
    | none => none
    | some t =>
      match (if module ≠ "fc" then sat_fn A.clip_mode A.sqrt t
             else fc_sat_fn t) with
      | none => none
      | some s =>
        let factor : ℚ := 2 ^ (clamp_bits - 1) * s
        some (roundT (clampT (-(2 ^ (clamp_bits - 1))) (2 ^ (clamp_bits - 1) - 1)
          (tmap (fun x => factor * x) t)))

/-- The value stored for a wrapped module in the quantized path
(lines 113-133), as a partial function of the original state. -/
def transformQ (A : Args) (cs : StateDict) (k : Key) (module : Key)
    (parameter : String) : Option Tensor :=
  match alget k cs with
  | none => none
  | some t =>
    let p := if module ≠ ["fc"] then (CONV_SCALE_BITS, A.weight_bits)
             else (FC_SCALE_BITS, FC_CLAMP_BITS)
    match alget (module ++ [scaleSuffix parameter]) cs with
    | none => none
    | some fpt =>
      match asScalar fpt with
      | none => none
      | some fp_scale =>
        let weights :=
          if ¬ module = ["fc"] then tmap (fun x => x * A.pow2_round fp_scale p.1) t
          else roundT (tmap (fun x => x * fp_scale) t)
        some (roundT (clampT (-(2 ^ (p.2 - 1))) (2 ^ (p.2 - 1) - 1) weights))

/-- How the iteration for key `k` transforms the binding of key `x`. -/
def redStep (A : Args) (cs : StateDict) (k x : Key) (o : Option Tensor) :
    Option Tensor :=
  match rsplit1 k with
  | none => o
  | some (operation, parameter) =>
    if parameter = "w_zero_point" ∨ parameter = "b_zero_point" then
      if x = k then none else o
    else if parameter = "weight" ∨ parameter = "bias" then
      if !A.quantized then
        if x = k then transformNQ A cs k else o
      else
        match rsplit1 operation with
        | none => o
        | some (module, st) =>
          if st = "wrapped_module" then
            let o := if x = module ++ [parameter]
                     then transformQ A cs k module parameter else o
            let o := if x = k then none else o
            if x = module ++ [scaleSuffix parameter] then none else o
          else o
    else if parameter = "base_b_q" then
      if x = k then none else o
    else o

theorem step_lookup {A : Args} {cs new new' : StateDict} {k : Key}
    (h : step A cs new k = .ok new') (x : Key) :
    alget x new' = redStep A cs k x (alget x new) := by
  unfold step at h
  unfold redStep
  match hr : rsplit1 k with
  | none => simp only [hr] at h; exact absurd h (by simp)
  | some (operation, parameter) =>
    simp only [hr] at h
    by_cases hzp : parameter = "w_zero_point" ∨ parameter = "b_zero_point"
    · simp only [hzp, if_true] at h ⊢
      match hg : alget k cs with
      | none => simp only [hg] at h; exact absurd h (by simp)
      | some t =>
        simp only [hg] at h
        by_cases hnz : hasNonzero t
        · simp only [if_pos hnz] at h; exact absurd h (by simp)
        · simp only [if_neg hnz] at h
          rw [aldel_ok h]
          simp
    · simp only [hzp, if_false] at h ⊢
      by_cases hwb : parameter = "weight" ∨ parameter = "bias"
      · simp only [hwb, if_true] at h ⊢
        by_cases hq : A.quantized
        · simp only [hq, Bool.not_true, Bool.false_eq_true, if_false] at h ⊢
          match hro : rsplit1 operation with
          | none => simp only [hro] at h; exact absurd h (by simp)
          | some (module, st) =>
            simp only [hro] at h
            by_cases hst : st = "wrapped_module"
            · simp only [hst, if_true] at h ⊢
              match hg : alget k cs with
              | none => simp only [hg] at h; exact absurd h (by simp)
              | some t =>
                simp only [hg] at h
                match hsc : alget (module ++ [scaleSuffix parameter]) cs with
                | none => simp only [hsc] at h; exact absurd h (by simp)
                | some fpt =>
                  simp only [hsc] at h
                  match hs : asScalar fpt with
                  | none => simp only [hs] at h; exact absurd h (by simp)
                  | some fp_scale =>
                    simp only [hs] at h
                    split at h
                    · exact absurd h (by simp)
                    · rename_i new1 hd1
                      rw [aldel_ok h, aldel_ok hd1]
                      by_cases e1 : x = module ++ [scaleSuffix parameter] <;>
                        by_cases e2 : x = k <;>
                        by_cases e3 : x = module ++ [parameter] <;>
                        simp [alget_alerase, alget_alset, transformQ,
                          hg, hsc, hs, e1, e2, e3]
            · simp only [hst, if_false] at h ⊢
              cases h; rfl
        · simp only [hq, Bool.not_false, if_true] at h ⊢
          match hsp : split1 k with
          | none => simp only [hsp] at h; exact absurd h (by simp)
          | some (module, rest) =>
            simp only [hsp] at h
            match hg : alget k cs with
            | none => simp only [hg] at h; exact absurd h (by simp)
            | some t =>
              simp only [hg] at h
              match hsf : (if module ≠ "fc" then sat_fn A.clip_mode A.sqrt t
                           else fc_sat_fn t) with
              | none => simp only [hsf] at h; exact absurd h (by simp)
              | some s =>
                simp only [hsf] at h
                match hv : (if A.verbose then
                             match avg_max t, max_max t, tmean t with
                             | some _, some _, some _ => some ()
                             | _, _, _ => none
                           else some ()) with
                | none => simp only [hv] at h; exact absurd h (by simp)
                | some _ =>
                  simp only [hv] at h
                  cases h
                  by_cases e1 : x = k <;>
                    simp [alget_alset, transformNQ, hsp, hg, hsf, e1]
      · simp only [hwb, if_false] at h ⊢
        by_cases hb : parameter = "base_b_q"
        · simp only [hb, if_true] at h ⊢
          rw [aldel_ok h]; simp
        · simp only [hb, if_false] at h ⊢
          cases h; rfl

theorem fold_lookup {A : Args} {cs : StateDict} :
    ∀ (ks : List Key) (acc res : StateDict),
    List.foldlM (step A cs) acc ks = .ok res →
    ∀ x, alget x res = ks.foldl (fun o k => redStep A cs k x o) (alget x acc) := by
  intro ks
  induction ks with
  | nil =>
    intro acc res h x
    simp only [List.foldlM_nil, pure, Except.pure] at h
    cases h; simp
  | cons k ks ih =>
    intro acc res h x
    rw [List.foldlM_cons] at h
    match hstep : step A cs acc k with
    | .error e => rw [hstep] at h; simp [Bind.bind, Except.bind] at h
    | .ok acc1 =>
      rw [hstep] at h
      simp only [Bind.bind, Except.bind] at h
      rw [List.foldl_cons, ← step_lookup hstep x]
      exact ih acc1 res h x

theorem fold_step_ok {A : Args} {cs : StateDict} :
    ∀ (ks : List Key) (acc res : StateDict),
    List.foldlM (step A cs) acc ks = .ok res →
    ∀ k ∈ ks, ∃ a a', step A cs a k = .ok a' := by
  intro ks
  induction ks with
  | nil => intro acc res _ k hk; cases hk
  | cons k0 ks ih =>
    intro acc res h k hk
    rw [List.foldlM_cons] at h
    match hstep : step A cs acc k0 with
    | .error e => rw [hstep] at h; simp [Bind.bind, Except.bind] at h
    | .ok acc1 =>
      rw [hstep] at h
      simp only [Bind.bind, Except.bind] at h
      rcases List.mem_cons.mp hk with rfl | hk'
      · exact ⟨acc, acc1, hstep⟩
      · exact ih acc1 res h k hk'

theorem foldl_act_id {κ β : Type} (f : κ → β → β) :
    ∀ (ks : List κ) (o : β), (∀ k ∈ ks, ∀ o', f k o' = o') →
    ks.foldl (fun o k => f k o) o = o := by
  intro ks
  induction ks with
  | nil => intro o _; rfl
  | cons k ks ih =>
    intro o hid
    rw [List.foldl_cons, hid k (by simp)]
    exact ih o (fun k' hk' => hid k' (by simp [hk']))

theorem foldl_act_single {κ β : Type} [DecidableEq κ] (f : κ → β → β) :
    ∀ (ks : List κ) (o : β) (k : κ), k ∈ ks → ks.Nodup →
    (∀ k' ∈ ks, k' ≠ k → ∀ o', f k' o' = o') →
    ks.foldl (fun o k => f k o) o = f k o := by
  intro ks
  induction ks with
  | nil => intro o k hk; cases hk
  | cons k0 ks ih =>
    intro o k hk hnd hid
    rcases List.mem_cons.mp hk with rfl | hk'
    · rw [List.foldl_cons]
      exact foldl_act_id f ks (f k o)
        (fun k' hk' => hid k' (by simp [hk'])
          (fun he => ((List.nodup_cons.mp hnd).1 (he ▸ hk')).elim))
    · rw [List.foldl_cons,
        hid k0 (by simp) (fun he => (List.nodup_cons.mp hnd).1 (he ▸ hk'))]
      exact ih o k hk' (List.nodup_cons.mp hnd).2
        (fun k' h1 h2 => hid k' (by simp [h1]) h2)

/-! ### Key-shape lemmas -/

theorem rsplit1_append {m : Key} {p : String} (hm : m ≠ []) :
    rsplit1 (m ++ [p]) = some (m, p) := by
  unfold rsplit1
  rw [List.reverse_append]
  obtain ⟨a, l, hml⟩ : ∃ a l, m.reverse = a :: l := by
    cases hmr : m.reverse with
    | nil => exact absurd (by simpa using hmr) hm
    | cons a l => exact ⟨a, l, rfl⟩
  rw [hml]
  have hrr : (a :: l).reverse = m := by rw [← hml, List.reverse_reverse]
  simp [hrr]

theorem rsplit1_some {k init : Key} {last : String}
    (h : rsplit1 k = some (init, last)) : k = init ++ [last] ∧ init ≠ [] := by
  unfold rsplit1 at h
  match hkr : k.reverse with
  | [] => rw [hkr] at h; cases h
  | [a] => rw [hkr] at h; cases h
  | a :: b :: l =>
    rw [hkr] at h
    cases h
    constructor
    · have : k = k.reverse.reverse := (List.reverse_reverse k).symm
      rw [this, hkr]
      simp
    · simp

theorem alget_mem {κ α : Type} [DecidableEq κ] {k : κ} {l : List (κ × α)}
    (hk : k ∈ l.map Prod.fst) : ∃ v, alget k l = some v := by
  induction l with
  | nil => cases hk
  | cons e l ih =>
    obtain ⟨k', v⟩ := e
    by_cases h : k' = k
    · exact ⟨v, by simp [alget, h]⟩
    · rcases List.mem_map.mp hk with ⟨⟨a, b⟩, hab, hfst⟩
      rcases List.mem_cons.mp hab with heq | hmem
      · cases heq; exact absurd hfst h
      · have := ih (List.mem_map.mpr ⟨(a, b), hmem, hfst⟩)
        simpa [alget, h] using this

theorem alget_mem_iff {κ α : Type} [DecidableEq κ] {k : κ} {l : List (κ × α)} :
    k ∈ l.map Prod.fst ↔ (alget k l).isSome := by
  constructor
  · intro h; rcases alget_mem h with ⟨v, hv⟩; simp [hv]
  · intro h
    induction l with
    | nil => simp [alget] at h
    | cons e l ih =>
      obtain ⟨k', v⟩ := e
      by_cases he : k' = k
      · simp [he]
      · simp only [alget, he, if_false] at h
        simpa using Or.inr (ih h)

/-! ### Neutrality and inversion lemmas for `redStep` -/

theorem ne_of_lastComp {x y : Key} (h : lastComp x ≠ lastComp y) : x ≠ y :=
  fun he => h (he ▸ rfl)

theorem lastComp_concat (m : Key) (p : String) : lastComp (m ++ [p]) = some p := by
  simp [lastComp]

theorem lastComp_of_rsplit1 {k op : Key} {p : String}
    (h : rsplit1 k = some (op, p)) : lastComp k = some p := by
  rw [(rsplit1_some h).1]; exact lastComp_concat op p

/-- If `x` is none of the keys the iteration for `k` writes or deletes,
that iteration leaves the binding of `x` alone. -/
theorem redStep_neutral {A : Args} {cs : StateDict} {k x : Key} {o : Option Tensor}
    (h : ∀ op p, rsplit1 k = some (op, p) →
      ((p = "w_zero_point" ∨ p = "b_zero_point" ∨ p = "base_b_q") → x ≠ k) ∧
      ((p = "weight" ∨ p = "bias") →
        (A.quantized = false → x ≠ k) ∧
        (A.quantized = true → ∀ m st, rsplit1 op = some (m, st) →
          st = "wrapped_module" →
          x ≠ m ++ [p] ∧ x ≠ k ∧ x ≠ m ++ [scaleSuffix p]))) :
    redStep A cs k x o = o := by
  unfold redStep
  match hr : rsplit1 k with
  | none => rfl
  | some (op, p) =>
    obtain ⟨h1, h2⟩ := h op p hr
    by_cases hzp : p = "w_zero_point" ∨ p = "b_zero_point"
    · simp [hzp, h1 (by tauto)]
    · simp only [hzp, if_false]
      by_cases hwb : p = "weight" ∨ p = "bias"
      · simp only [hwb, if_true]
        obtain ⟨hnq, hq⟩ := h2 hwb
        cases hAq : A.quantized with
        | false =>
          simp [hAq, hnq hAq]
        | true =>
          simp only [hAq, Bool.not_true, Bool.false_eq_true, if_false]
          match hro : rsplit1 op with
          | none => rfl
          | some (m, st) =>
            by_cases hst : st = "wrapped_module"
            · obtain ⟨e1, e2, e3⟩ := hq hAq m st hro hst
              simp [hst, e1, e2, e3]
            · simp [hst]
      · simp only [hwb, if_false]
        by_cases hb : p = "base_b_q"
        · simp [hb, h1 (by tauto)]
        · simp [hb]

/-- Success of the non-quantized weight/bias branch forces every partial
computation in `transformNQ` to succeed. -/
theorem step_ok_nq_inv {A : Args} {cs a a' : StateDict} {k op : Key} {p : String}
    (hq : A.quantized = false) (h : step A cs a k = .ok a')
    (hr : rsplit1 k = some (op, p)) (hwb : p = "weight" ∨ p = "bias") :
    ∃ v, transformNQ A cs k = some v := by
  unfold step at h
  simp only [hr] at h
  have hzp : ¬ (p = "w_zero_point" ∨ p = "b_zero_point") := by
    rcases hwb with rfl | rfl <;> simp
  simp only [hzp, if_false, hwb, if_true, hq, Bool.not_false, if_true] at h
  unfold transformNQ
  match hsp : split1 k with
  | none => simp only [hsp] at h; exact absurd h (by simp)
  | some (module, rest) =>
    simp only [hsp] at h
    match hg : alget k cs with
    | none => simp only [hg] at h; exact absurd h (by simp)
    | some t =>
      simp only [hg] at h
      match hsf : (if module ≠ "fc" then sat_fn A.clip_mode A.sqrt t
                   else fc_sat_fn t) with
      | none => simp only [hsf] at h; exact absurd h (by simp)
      | some s =>
        simp only [hsf]
        exact ⟨_, rfl⟩

/-- Success of the quantized weight/bias branch forces the inner `rsplit`
to succeed, and on a wrapped module forces `transformQ` to succeed. -/
theorem step_ok_q_inv {A : Args} {cs a a' : StateDict} {k op : Key} {p : String}
    (hq : A.quantized = true) (h : step A cs a k = .ok a')
    (hr : rsplit1 k = some (op, p)) (hwb : p = "weight" ∨ p = "bias") :
    ∃ m st, rsplit1 op = some (m, st) ∧
      (st = "wrapped_module" → ∃ v, transformQ A cs k m p = some v) := by
  unfold step at h
  simp only [hr] at h
  have hzp : ¬ (p = "w_zero_point" ∨ p = "b_zero_point") := by
    rcases hwb with rfl | rfl <;> simp
  simp only [hzp, if_false, hwb, if_true, hq, Bool.not_true,
    Bool.false_eq_true, if_false] at h
  match hro : rsplit1 op with
  | none => simp only [hro] at h; exact absurd h (by simp)
  | some (m, st) =>
    refine ⟨m, st, rfl, fun hst => ?_⟩
    simp only [hro, hst, if_true] at h
    unfold transformQ
    match hg : alget k cs with
    | none => simp only [hg] at h; exact absurd h (by simp)
    | some t =>
      simp only [hg] at h
      match hsc : alget (m ++ [scaleSuffix p]) cs with
      | none => simp only [hsc] at h; exact absurd h (by simp)
      | some fpt =>
        simp only [hsc] at h
        match hs : asScalar fpt with
        | none => simp only [hs] at h; exact absurd h (by simp)
        | some fp_scale =>
          simp only [hs]
          exact ⟨_, rfl⟩

/-- The zero-point branch: a nonzero zero-point tensor raises
`RuntimeError` (lines 86-88). -/
theorem step_zp_nonzero {A : Args} {cs : StateDict} {k op : Key} {p : String}
    {t : Tensor} (hr : rsplit1 k = some (op, p))
    (hzp : p = "w_zero_point" ∨ p = "b_zero_point")
    (hg : alget k cs = some t) (hnz : hasNonzero t = true) (a : StateDict) :
    step A cs a k = .error (.runtimeError "Parameter is not zero.") := by
  unfold step
  simp [hr, hzp, hg, hnz]

/-- Success of the zero-point branch forces the tensor to be all zero. -/
theorem step_ok_zp_inv {A : Args} {cs a a' : StateDict} {k op : Key} {p : String}
    {t : Tensor} (h : step A cs a k = .ok a')
    (hr : rsplit1 k = some (op, p))
    (hzp : p = "w_zero_point" ∨ p = "b_zero_point")
    (hg : alget k cs = some t) : hasNonzero t = false := by
  by_cases hnz : hasNonzero t = true
  · rw [step_zp_nonzero hr hzp hg hnz a] at h
    exact absurd h (by simp)
  · simpa using hnz

/-! ### Integrality and range of the produced tensors -/

/-- All elements of a tensor are integers. -/
def isIntTensor (t : Tensor) : Prop := ∀ x ∈ flat t, x.den = 1

/-- All elements lie in the clamp range of `b`-bit signed weights. -/
def inRangeTensor (b : ℕ) (t : Tensor) : Prop :=
  ∀ x ∈ flat t, -(2 ^ (b - 1) : ℚ) ≤ x ∧ x ≤ 2 ^ (b - 1) - 1

instance (t : Tensor) : Decidable (isIntTensor t) :=
  inferInstanceAs (Decidable (∀ x ∈ flat t, x.den = 1))

instance (b : ℕ) (t : Tensor) : Decidable (inRangeTensor b t) :=
  inferInstanceAs (Decidable (∀ x ∈ flat t, _ ∧ _))

theorem flat_tmap (f : ℚ → ℚ) (t : Tensor) :
    flat (tmap f t) = (flat t).map f := by
  induction t with
  | nil => rfl
  | cons r t ih =>
    simp only [tmap] at ih ⊢
    simp [flat, ih]

theorem round_int_range {lo hi : ℤ} {z : ℚ} (h1 : (lo : ℚ) ≤ z)
    (h2 : z ≤ (hi : ℚ)) :
    (lo : ℚ) ≤ (round z : ℚ) ∧ ((round z : ℚ)) ≤ (hi : ℚ) := by
  have m1 : lo ≤ round z := by
    rw [round_eq]
    have : (lo : ℚ) + 1 / 2 ≤ z + 1 / 2 := by linarith
    calc lo = lo + ⌊(1 / 2 : ℚ)⌋ := by norm_num
    _ = ⌊(lo : ℚ) + 1 / 2⌋ := (Int.floor_int_add lo _).symm
    _ ≤ ⌊z + 1 / 2⌋ := Int.floor_mono this
  have m2 : round z ≤ hi := by
    rw [round_eq]
    have : z + 1 / 2 ≤ (hi : ℚ) + 1 / 2 := by linarith
    calc ⌊z + 1 / 2⌋ ≤ ⌊(hi : ℚ) + 1 / 2⌋ := Int.floor_mono this
    _ = hi + ⌊(1 / 2 : ℚ)⌋ := Int.floor_int_add hi _
    _ = hi := by norm_num
  exact ⟨by exact_mod_cast m1, by exact_mod_cast m2⟩

/-- The final `clamp(...).round()` always produces integer values inside
the `b`-bit clamp range, whatever tensor it is given. -/
theorem roundClamp_ok (b : ℕ) (t : Tensor) :
    isIntTensor (roundT (clampT (-(2 ^ (b - 1))) (2 ^ (b - 1) - 1) t)) ∧
    inRangeTensor b (roundT (clampT (-(2 ^ (b - 1))) (2 ^ (b - 1) - 1) t)) := by
  have hflat : flat (roundT (clampT (-(2 ^ (b - 1))) (2 ^ (b - 1) - 1) t)) =
      (flat t).map (fun x =>
        (round (min (max x (-(2 ^ (b - 1)))) (2 ^ (b - 1) - 1)) : ℚ)) := by
    unfold roundT clampT
    rw [flat_tmap, flat_tmap, List.map_map]
    rfl
  constructor
  · intro x hx
    rw [hflat] at hx
    rcases List.mem_map.mp hx with ⟨y, _, rfl⟩
    exact Rat.den_intCast _
  · intro x hx
    rw [hflat] at hx
    rcases List.mem_map.mp hx with ⟨y, _, rfl⟩
    have hlo : ((-(2 ^ (b - 1)) : ℤ) : ℚ) ≤ min (max y (-(2 ^ (b - 1)))) (2 ^ (b - 1) - 1) := by
      push_cast
      have h2 : (1 : ℚ) ≤ 2 ^ (b - 1) := one_le_pow₀ (by norm_num)
      exact le_min (le_trans (by linarith) (le_max_right _ _)) (by linarith)
    have hhi : min (max y (-(2 ^ (b - 1)))) (2 ^ (b - 1) - 1) ≤ ((2 ^ (b - 1) - 1 : ℤ) : ℚ) := by
      push_cast
      exact min_le_right _ _
    have := round_int_range hlo hhi
    constructor
    · refine le_trans (le_of_eq ?_) this.1
      push_cast; ring
    · refine le_trans this.2 (le_of_eq ?_)
      push_cast; ring

theorem split1_some {k : Key} {c : String} {r : Key}
    (h : split1 k = some (c, r)) : k = c :: r := by
  match k with
  | [] => cases h
  | [a] => cases h
  | a :: b :: l => cases h; rfl

/-- Success of `convert_checkpoint` decomposed into its phases. -/
theorem convert_ok_inv {A : Args} {ck : Checkpoint} {r : ConvOut}
    (h : convert_checkpoint A ck = .ok r) :
    ∃ ck1 cs new,
      ((A.quantized = false ∧ ck1 = ck) ∨
       (A.quantized = true ∧ (alget "quantizer_metadata" ck).isSome ∧
        ck1 = alerase "quantizer_metadata" ck)) ∧
      alget "state_dict" ck1 = some (.dict cs) ∧
      convert_state_dict A cs = .ok new ∧
      ((A.embedded = false ∧ r = .file (alset "state_dict" (.dict new) ck1)) ∨
       (A.embedded = true ∧
        r = .printed (new.map (fun e => (defineName e.1, e.2))))) := by
  unfold convert_checkpoint at h
  cases hq : A.quantized with
  | false =>
    rw [hq, if_neg (by simp : ¬ (false = true))] at h
    match hsd : alget "state_dict" ck with
    | none => simp only [hsd] at h; exact absurd h (by simp)
    | some (.blob n) => simp only [hsd] at h; exact absurd h (by simp)
    | some (.dict cs) =>
      simp only [hsd] at h
      match hcv : convert_state_dict A cs with
      | .error e => simp only [hcv] at h; exact absurd h (by simp)
      | .ok new =>
        simp only [hcv] at h
        refine ⟨ck, cs, new, Or.inl ⟨rfl, rfl⟩, hsd, hcv, ?_⟩
        cases he : A.embedded with
        | false =>
          simp only [he, Bool.not_false, if_true] at h
          exact Or.inl ⟨rfl, (Except.ok.inj h).symm⟩
        | true =>
          simp only [he, Bool.not_true, Bool.false_eq_true, if_false] at h
          exact Or.inr ⟨rfl, (Except.ok.inj h).symm⟩
  | true =>
    rw [hq, if_pos rfl] at h
    match hm : alget "quantizer_metadata" ck with
    | none => simp only [hm] at h; exact absurd h (by simp)
    | some mv =>
      simp only [hm] at h
      match hsd : alget "state_dict" (alerase "quantizer_metadata" ck) with
      | none => simp only [hsd] at h; exact absurd h (by simp)
      | some (.blob n) => simp only [hsd] at h; exact absurd h (by simp)
      | some (.dict cs) =>
        simp only [hsd] at h
        match hcv : convert_state_dict A cs with
        | .error e => simp only [hcv] at h; exact absurd h (by simp)
        | .ok new =>
          simp only [hcv] at h
          refine ⟨alerase "quantizer_metadata" ck, cs, new,
            Or.inr ⟨rfl, by simp [hm], rfl⟩, hsd, hcv, ?_⟩
          cases he : A.embedded with
          | false =>
            simp only [he, Bool.not_false, if_true] at h
            exact Or.inl ⟨rfl, (Except.ok.inj h).symm⟩
          | true =>
            simp only [he, Bool.not_true, Bool.false_eq_true, if_false] at h
            exact Or.inr ⟨rfl, (Except.ok.inj h).symm⟩

/-- Core of C1, at the level of the state-dict loop. -/
theorem convert_sd_nq_value {A : Args} {cs res : StateDict} {k : Key} {t : Tensor}
    (hq : A.quantized = false)
    (hnd : (cs.map Prod.fst).Nodup)
    (hok : convert_state_dict A cs = .ok res)
    (hk : alget k cs = some t)
    (hwb : lastComp k = some "weight" ∨ lastComp k = some "bias") :
    ∃ (module : String) (rest : Key) (s : ℚ),
      k = module :: rest ∧
      (if module ≠ "fc" then sat_fn A.clip_mode A.sqrt t else fc_sat_fn t) = some s ∧
      alget k res = some (roundT (clampT
        (-(2 ^ ((if module ≠ "fc" then A.weight_bits else FC_CLAMP_BITS) - 1)))
        (2 ^ ((if module ≠ "fc" then A.weight_bits else FC_CLAMP_BITS) - 1) - 1)
        (tmap (fun x =>
          (2 ^ ((if module ≠ "fc" then A.weight_bits else FC_CLAMP_BITS) - 1) * s) * x)
          t))) := by
  have hmem : k ∈ cs.map Prod.fst := alget_mem_iff.mpr (by simp [hk])
  unfold convert_state_dict at hok
  obtain ⟨a, a', hstep⟩ := fold_step_ok (cs.map Prod.fst) cs res hok k hmem
  match hr : rsplit1 k with
  | none =>
    exfalso; unfold step at hstep; simp only [hr] at hstep
    exact absurd hstep (by simp)
  | some (op, p) =>
    have hp : p = "weight" ∨ p = "bias" := by
      have := lastComp_of_rsplit1 hr
      rcases hwb with hw | hw <;> rw [hw] at this <;>
        [exact Or.inl (Option.some.inj this).symm;
         exact Or.inr (Option.some.inj this).symm]
    obtain ⟨v, htr⟩ := step_ok_nq_inv hq hstep hr hp
    have hlook := fold_lookup (cs.map Prod.fst) cs res hok k
    have hsingle : (cs.map Prod.fst).foldl
        (fun o k' => redStep A cs k' k o) (alget k cs) =
        redStep A cs k k (alget k cs) := by
      refine foldl_act_single _ (cs.map Prod.fst) (alget k cs) k hmem hnd ?_
      intro k' _ hne o
      refine redStep_neutral ?_
      intro op' p' _
      refine ⟨fun _ => (Ne.symm hne), fun _ => ⟨fun _ => (Ne.symm hne), fun hq' => ?_⟩⟩
      rw [hq] at hq'; cases hq'
    have hself : redStep A cs k k (alget k cs) = transformNQ A cs k := by
      unfold redStep
      have hzp : ¬ (p = "w_zero_point" ∨ p = "b_zero_point") := by
        rcases hp with rfl | rfl <;> simp
      simp [hr, hzp, hp, hq]
    rw [hsingle, hself] at hlook
    -- unfold transformNQ to extract the pieces
    unfold transformNQ at htr
    match hsp : split1 k with
    | none => rw [hsp] at htr; cases htr
    | some (module, rest) =>
      simp only [hsp] at htr
      simp only [hk] at htr
      match hsf : (if module ≠ "fc" then sat_fn A.clip_mode A.sqrt t
                   else fc_sat_fn t) with
      | none => rw [hsf] at htr; cases htr
      | some s =>
        refine ⟨module, rest, s, split1_some hsp, hsf, ?_⟩
        rw [hlook]
        unfold transformNQ
        simp [hsp, hk, hsf]

instance {ε α : Type} [DecidableEq ε] [DecidableEq α] :
    DecidableEq (Except ε α) := fun
  | .error e, .error f =>
    if h : e = f then isTrue (by rw [h])
    else isFalse (by intro hh; cases hh; exact h rfl)
  | .error _, .ok _ => isFalse (by intro h; cases h)
  | .ok _, .error _ => isFalse (by intro h; cases h)
  | .ok a, .ok b =>
    if h : a = b then isTrue (by rw [h])
    else isFalse (by intro hh; cases hh; exact h rfl)

/-! ## Witness fixtures -/

/-- Identity stand-in for the host square root in concrete witnesses. -/
def idSqrt : ℚ → ℚ := fun q => q

/-- Identity stand-in for `pow2_round` in concrete witnesses. -/
def idPow2 : ℚ → ℕ → ℚ := fun q _ => q

/-- Non-quantized CLI invocation used by witnesses. -/
def argsNQ : Args := ⟨false, false, false, .SCALE, 8, idSqrt, idPow2⟩

/-- Quantized CLI invocation used by witnesses. -/
def argsQ : Args := ⟨false, true, false, .SCALE, 8, idSqrt, idPow2⟩

/-- Embedded CLI invocation used by witnesses. -/
def argsEmb : Args := ⟨true, false, false, .SCALE, 8, idSqrt, idPow2⟩

/-- A one-entry state dict with an `fc` weight. -/
def csNQ : StateDict := [(["fc", "weight"], [[0]])]

/-- A checkpoint holding `csNQ`. -/
def ckNQ : Checkpoint := [("state_dict", .dict csNQ)]

/-! ## Claim C1 -/

/-- **C1**: for every checkpoint converted without `--quantized` and every
state-dict key whose last dot-separated component is `weight` or `bias`,
the converted value is `round(clamp(2^(clamp_bits-1) * sat(t) * t,
-(2^(clamp_bits-1)), 2^(clamp_bits-1)-1))` applied elementwise to the
original tensor `t`, where `clamp_bits` is `ai84.WEIGHT_BITS` when the
key's first component is not `fc` and `FC_CLAMP_BITS = 16` when it is, and
`sat` is the `--clip-mode` statistic for non-`fc` keys and the constant
`fc_sat_fn` for `fc` keys. -/
theorem C1_nonquantized_roundclamp
    (A : Args) (ck : Checkpoint) (r : ConvOut) (cs : StateDict) (k : Key)
    (t : Tensor)
    (hq : A.quantized = false)
    (hok : convert_checkpoint A ck = .ok r)
    (hcs : alget "state_dict" ck = some (.dict cs))
    (hnd : (cs.map Prod.fst).Nodup)
    (hk : alget k cs = some t)
    (hwb : lastComp k = some "weight" ∨ lastComp k = some "bias") :
    ∃ res, convert_state_dict A cs = .ok res ∧
      (A.embedded = false → r = .file (alset "state_dict" (.dict res) ck)) ∧
      ∃ (module : String) (rest : Key) (s : ℚ),
        k = module :: rest ∧
        (if module ≠ "fc" then sat_fn A.clip_mode A.sqrt t
         else fc_sat_fn t) = some s ∧
        alget k res = some (roundT (clampT
          (-(2 ^ ((if module ≠ "fc" then A.weight_bits else FC_CLAMP_BITS) - 1)))
          (2 ^ ((if module ≠ "fc" then A.weight_bits else FC_CLAMP_BITS) - 1) - 1)
          (tmap (fun x =>
            (2 ^ ((if module ≠ "fc" then A.weight_bits else FC_CLAMP_BITS) - 1) * s)
              * x) t))) := by
  obtain ⟨ck1, cs1, new, hphase, hsd1, hcv, hout⟩ := convert_ok_inv hok
  rcases hphase with ⟨_, rfl⟩ | ⟨hq2, _, _⟩
  · have hcc : cs1 = cs := by
      have := hsd1.symm.trans hcs
      simpa using this
    subst hcc
    refine ⟨new, hcv, ?_, ?_⟩
    · intro hemb
      rcases hout with ⟨_, hr⟩ | ⟨hemb2, _⟩
      · exact hr
      · rw [hemb] at hemb2; cases hemb2
    · exact convert_sd_nq_value hq hnd hcv hk hwb
  · rw [hq] at hq2; cases hq2

/-- Witness for C1 at a concrete argument set and checkpoint. -/
theorem C1_witness :
    ∃ res, convert_state_dict argsNQ csNQ = .ok res ∧
      (argsNQ.embedded = false →
        (ConvOut.file [("state_dict", .dict [(["fc", "weight"], [[0]])])]) =
          .file (alset "state_dict" (.dict res) ckNQ)) ∧
      ∃ (module : String) (rest : Key) (s : ℚ),
        (["fc", "weight"] : Key) = module :: rest ∧
        (if module ≠ "fc" then sat_fn argsNQ.clip_mode argsNQ.sqrt [[0]]
         else fc_sat_fn [[0]]) = some s ∧
        alget (["fc", "weight"] : Key) res = some (roundT (clampT
          (-(2 ^ ((if module ≠ "fc" then argsNQ.weight_bits else FC_CLAMP_BITS) - 1)))
          (2 ^ ((if module ≠ "fc" then argsNQ.weight_bits else FC_CLAMP_BITS) - 1) - 1)
          (tmap (fun x =>
            (2 ^ ((if module ≠ "fc" then argsNQ.weight_bits else FC_CLAMP_BITS) - 1) * s)
              * x) [[0]]))) :=
  C1_nonquantized_roundclamp argsNQ ckNQ
    (.file [("state_dict", .dict [(["fc", "weight"], [[0]])])])
    csNQ ["fc", "weight"] [[0]]
    rfl
    (by simp +decide [convert_checkpoint, convert_state_dict, step, argsNQ,
      ckNQ, csNQ, alget, alerase, alset, aldel, rsplit1, split1, fc_sat_fn,
      get_const, tmap, clampT, roundT, scaleSuffix, FC_CLAMP_BITS,
      hasNonzero, flat])
    (by simp [ckNQ, csNQ, alget])
    (by simp [csNQ])
    (by simp [csNQ, alget])
    (by simp [lastComp])

/-! ## Claim C8 -/

theorem scaleSuffix_weight : scaleSuffix "weight" = "w_scale" := by decide

theorem scaleSuffix_bias : scaleSuffix "bias" = "b_scale" := by decide

/-- The iteration for `k'` leaves `x ≠ k'` alone whenever `x`'s last
component is not of weight/bias kind, nor (in quantized mode) of scale
kind. -/
theorem redStep_neutral_simple {A : Args} {cs : StateDict} {k' x : Key}
    {o : Option Tensor}
    (hne : x ≠ k')
    (hw : lastComp x ≠ some "weight") (hb : lastComp x ≠ some "bias")
    (hws : A.quantized = true → lastComp x ≠ some "w_scale")
    (hbs : A.quantized = true → lastComp x ≠ some "b_scale") :
    redStep A cs k' x o = o := by
  refine redStep_neutral ?_
  intro op p _
  refine ⟨fun _ => hne, fun hp => ⟨fun _ => hne, fun hq m st _ _ => ?_⟩⟩
  refine ⟨?_, hne, ?_⟩
  · refine ne_of_lastComp ?_
    rw [lastComp_concat]
    rcases hp with rfl | rfl
    · exact hw
    · exact hb
  · refine ne_of_lastComp ?_
    rw [lastComp_concat]
    rcases hp with rfl | rfl
    · rw [scaleSuffix_weight]; exact hws hq
    · rw [scaleSuffix_bias]; exact hbs hq

/-- **C8**: a `w_zero_point`/`b_zero_point` entry aborts the conversion
with a `RuntimeError` when any of its elements is nonzero, is deleted
otherwise, and never survives into a successfully converted state dict. -/
theorem C8_zero_point (A : Args) (cs : StateDict) (k : Key)
    (hnd : (cs.map Prod.fst).Nodup)
    (hzp : lastComp k = some "w_zero_point" ∨ lastComp k = some "b_zero_point") :
    (∀ t, alget k cs = some t → hasNonzero t = true →
      ∀ res, convert_state_dict A cs ≠ .ok res) ∧
    (∀ res, convert_state_dict A cs = .ok res →
      (∀ t, alget k cs = some t → hasNonzero t = false) ∧
      alget k res = none) := by
  have hwne : lastComp k ≠ some "weight" := by
    rcases hzp with h | h <;> rw [h] <;> simp
  have hbne : lastComp k ≠ some "bias" := by
    rcases hzp with h | h <;> rw [h] <;> simp
  have hwsne : lastComp k ≠ some "w_scale" := by
    rcases hzp with h | h <;> rw [h] <;> simp
  have hbsne : lastComp k ≠ some "b_scale" := by
    rcases hzp with h | h <;> rw [h] <;> simp
  constructor
  · intro t hk hnz res hok
    have hmem : k ∈ cs.map Prod.fst := alget_mem_iff.mpr (by simp [hk])
    unfold convert_state_dict at hok
    obtain ⟨a, a', hstep⟩ := fold_step_ok (cs.map Prod.fst) cs res hok k hmem
    match hr : rsplit1 k with
    | none =>
      unfold step at hstep; simp only [hr] at hstep
      exact absurd hstep (by simp)
    | some (op, p) =>
      have hp : p = "w_zero_point" ∨ p = "b_zero_point" := by
        have := lastComp_of_rsplit1 hr
        rcases hzp with h | h <;> rw [h] at this <;>
          [exact Or.inl (Option.some.inj this).symm;
           exact Or.inr (Option.some.inj this).symm]
      rw [step_zp_nonzero hr hp hk hnz a] at hstep
      exact absurd hstep (by simp)
  · intro res hok
    have hallz : ∀ t, alget k cs = some t → hasNonzero t = false := by
      intro t hk
      by_cases hnz : hasNonzero t = true
      · exfalso
        have hmem : k ∈ cs.map Prod.fst := alget_mem_iff.mpr (by simp [hk])
        unfold convert_state_dict at hok
        obtain ⟨a, a', hstep⟩ := fold_step_ok (cs.map Prod.fst) cs res hok k hmem
        match hr : rsplit1 k with
        | none =>
          unfold step at hstep; simp only [hr] at hstep
          exact absurd hstep (by simp)
        | some (op, p) =>
          have hp : p = "w_zero_point" ∨ p = "b_zero_point" := by
            have := lastComp_of_rsplit1 hr
            rcases hzp with h | h <;> rw [h] at this <;>
              [exact Or.inl (Option.some.inj this).symm;
               exact Or.inr (Option.some.inj this).symm]
          rw [step_zp_nonzero hr hp hk hnz a] at hstep
          exact absurd hstep (by simp)
      · simpa using hnz
    refine ⟨hallz, ?_⟩
    unfold convert_state_dict at hok
    have hlook := fold_lookup (cs.map Prod.fst) cs res hok k
    by_cases hmem : k ∈ cs.map Prod.fst
    · obtain ⟨a, a', hstep⟩ := fold_step_ok (cs.map Prod.fst) cs res hok k hmem
      match hr : rsplit1 k with
      | none =>
        unfold step at hstep; simp only [hr] at hstep
        exact absurd hstep (by simp)
      | some (op, p) =>
        have hp : p = "w_zero_point" ∨ p = "b_zero_point" := by
          have := lastComp_of_rsplit1 hr
          rcases hzp with h | h <;> rw [h] at this <;>
            [exact Or.inl (Option.some.inj this).symm;
             exact Or.inr (Option.some.inj this).symm]
        have hsingle : (cs.map Prod.fst).foldl
            (fun o k' => redStep A cs k' k o) (alget k cs) =
            redStep A cs k k (alget k cs) :=
          foldl_act_single _ (cs.map Prod.fst) (alget k cs) k hmem hnd
            (fun k' _ hne o => redStep_neutral_simple (Ne.symm hne) hwne hbne
              (fun _ => hwsne) (fun _ => hbsne))
        rw [hlook, hsingle]
        unfold redStep
        have hwb : ¬ (p = "weight" ∨ p = "bias") := by
          rcases hp with rfl | rfl <;> simp
        simp [hr, hp]
    · have hnone : alget k cs = none := by
        cases hg : alget k cs with
        | none => rfl
        | some t => exact absurd (alget_mem_iff.mpr (by simp [hg])) hmem
      rw [hlook, foldl_act_id _ _ _
        (fun k' hk' o => redStep_neutral_simple
          (by rintro rfl; exact hmem hk') hwne hbne
          (fun _ => hwsne) (fun _ => hbsne)), hnone]

/-- Witness for C8: a concrete zero-valued zero-point entry is deleted. -/
theorem C8_witness :
    ((["conv1", "w_zero_point"] : Key) ∈
      ([(["conv1", "w_zero_point"], [[0]]), (["fc", "weight"], [[0]])] :
        StateDict).map Prod.fst) ∧
    convert_state_dict argsNQ
      [(["conv1", "w_zero_point"], [[0]]), (["fc", "weight"], [[0]])] =
      .ok [(["fc", "weight"], [[0]])] ∧
    alget (["conv1", "w_zero_point"] : Key)
      ([(["fc", "weight"], [[0]])] : StateDict) = none := by
  refine ⟨by simp, ?_, ?_⟩
  · simp +decide [convert_state_dict, step, argsNQ, alget, alerase, alset,
      aldel, rsplit1, split1, fc_sat_fn, get_const, tmap, clampT, roundT,
      scaleSuffix, FC_CLAMP_BITS, hasNonzero, flat]
  · have h := (C8_zero_point argsNQ
      [(["conv1", "w_zero_point"], [[0]]), (["fc", "weight"], [[0]])]
      ["conv1", "w_zero_point"] (by simp) (Or.inl (by simp [lastComp]))).2
      [(["fc", "weight"], [[0]])]
      (by simp +decide [convert_state_dict, step, argsNQ, alget, alerase,
        alset, aldel, rsplit1, split1, fc_sat_fn, get_const, tmap, clampT,
        roundT, scaleSuffix, FC_CLAMP_BITS, hasNonzero, flat])
    exact h.2

/-! ## Claim C6 -/

/-- **C6**: `convert_checkpoint` raises a `RuntimeError` when the
checkpoint has no `state_dict`; with `--quantized` it raises a
`RuntimeError` when there is no `quantizer_metadata`, and when the
metadata is present it is removed before the output is produced. -/
theorem C6_checkpoint_guards (A : Args) (ck : Checkpoint) :
    (alget "state_dict" ck = none →
      ∃ msg, convert_checkpoint A ck = .error (.runtimeError msg)) ∧
    (A.quantized = true → alget "quantizer_metadata" ck = none →
      convert_checkpoint A ck =
        .error (.runtimeError "No quantizer_metadata in checkpoint file.")) ∧
    (A.quantized = true → ∀ out, convert_checkpoint A ck = .ok (.file out) →
      alget "quantizer_metadata" out = none) := by
  refine ⟨?_, ?_, ?_⟩
  · intro hsd
    unfold convert_checkpoint
    cases hq : A.quantized with
    | false =>
      rw [if_neg (by simp : ¬ (false = true))]
      simp only [hsd]
      exact ⟨_, rfl⟩
    | true =>
      rw [if_pos rfl]
      match hm : alget "quantizer_metadata" ck with
      | none => simp only [hm]; exact ⟨_, rfl⟩
      | some mv =>
        have h2 : alget "state_dict" (alerase "quantizer_metadata" ck) = none := by
          rw [alget_alerase]
          simp [hsd]
        simp only [hm, h2]
        exact ⟨_, rfl⟩
  · intro hq hm
    unfold convert_checkpoint
    rw [hq, if_pos rfl]
    simp only [hm]
  · intro hq out hok
    obtain ⟨ck1, cs, new, hphase, hsd, hcv, hout⟩ := convert_ok_inv hok
    rcases hphase with ⟨hq2, _⟩ | ⟨_, _, hck1⟩
    · rw [hq] at hq2; cases hq2
    · rcases hout with ⟨_, hr⟩ | ⟨_, hr⟩
      · have h3 : out = alset "state_dict" (CVal.dict new) ck1 :=
          ConvOut.file.inj hr
        rw [h3, hck1, alget_alset]
        simp
      · cases hr

/-- Witness for C6 on a checkpoint with neither entry. -/
theorem C6_witness :
    (∃ msg, convert_checkpoint argsQ [("foo", .blob 0)] =
      .error (.runtimeError msg)) ∧
    convert_checkpoint argsQ [("foo", .blob 0)] =
      .error (.runtimeError "No quantizer_metadata in checkpoint file.") :=
  ⟨(C6_checkpoint_guards argsQ [("foo", .blob 0)]).1 (by simp [alget]),
   (C6_checkpoint_guards argsQ [("foo", .blob 0)]).2.1 rfl (by simp [alget])⟩

/-! ## Claim C9 -/

/-- **C9**: with `--embedded` no checkpoint file is produced; the
converted parameters are only printed as C `#define` lines, one per
state-dict key with dots replaced by underscores and the name
upper-cased (`defineName`). -/
theorem C9_embedded_prints (A : Args) (ck : Checkpoint) (r : ConvOut)
    (hemb : A.embedded = true)
    (hok : convert_checkpoint A ck = .ok r) :
    ∃ (ck1 : Checkpoint) (cs new : StateDict),
      alget "state_dict" ck1 = some (CVal.dict cs) ∧
      convert_state_dict A cs = .ok new ∧
      r = .printed (new.map (fun e => (defineName e.1, e.2))) ∧
      ∀ c : Checkpoint, r ≠ .file c := by
  obtain ⟨ck1, cs, new, hphase, hsd, hcv, hout⟩ := convert_ok_inv hok
  rcases hout with ⟨hemb2, _⟩ | ⟨_, hr⟩
  · rw [hemb] at hemb2; cases hemb2
  · exact ⟨ck1, cs, new, hsd, hcv, hr,
      by rw [hr]; intro c h; cases h⟩

/-- Witness for C9 at a concrete embedded conversion. -/
theorem C9_witness :
    ∃ (ck1 : Checkpoint) (cs new : StateDict),
      alget "state_dict" ck1 = some (CVal.dict cs) ∧
      convert_state_dict argsEmb cs = .ok new ∧
      (ConvOut.printed (([(["fc", "weight"], [[0]])] : StateDict).map
        (fun e => (defineName e.1, e.2))) : ConvOut) =
        .printed (new.map (fun e => (defineName e.1, e.2))) ∧
      ∀ c : Checkpoint,
        (ConvOut.printed (([(["fc", "weight"], [[0]])] : StateDict).map
          (fun e => (defineName e.1, e.2))) : ConvOut) ≠ .file c :=
  C9_embedded_prints argsEmb ckNQ
    (.printed (([(["fc", "weight"], [[0]])] : StateDict).map
      (fun e => (defineName e.1, e.2)))) rfl
    (by simp +decide [convert_checkpoint, convert_state_dict, step, argsEmb,
      ckNQ, csNQ, alget, alerase, alset, aldel, rsplit1, split1, fc_sat_fn,
      get_const, tmap, clampT, roundT, scaleSuffix, FC_CLAMP_BITS,
      hasNonzero, flat])

/-! ## Quantized wrapped-module analysis (shared by C2, C3, C7) -/

theorem append_singleton_inj {m m2 : Key} {a b : String}
    (h : m ++ [a] = m2 ++ [b]) : m = m2 ∧ a = b := by
  constructor
  · have := congrArg List.dropLast h
    simpa using this
  · have := congrArg lastComp h
    rw [lastComp_concat, lastComp_concat] at this
    exact Option.some.inj this

/-- In non-quantized mode, the iteration for `k'` only ever touches `k'`. -/
theorem redStep_nq_ne {A : Args} {cs : StateDict} {k' x : Key} {o : Option Tensor}
    (hq : A.quantized = false) (hne : x ≠ k') : redStep A cs k' x o = o :=
  redStep_neutral (fun _ _ _ =>
    ⟨fun _ => hne, fun _ => ⟨fun _ => hne,
      fun hq' => absurd (hq.symm.trans hq') (by simp)⟩⟩)

/-- In quantized mode, the iteration for a weight/bias key whose module is
not itself a wrapped module leaves everything alone. -/
theorem redStep_self_q {A : Args} {cs : StateDict} {m : Key} {p : String}
    {x : Key} {o : Option Tensor}
    (hq : A.quantized = true) (hp : p = "weight" ∨ p = "bias")
    (hm : lastComp m ≠ some "wrapped_module") (hmne : m ≠ []) :
    redStep A cs (m ++ [p]) x o = o := by
  unfold redStep
  rw [rsplit1_append hmne]
  have hzp : ¬ (p = "w_zero_point" ∨ p = "b_zero_point") := by
    rcases hp with rfl | rfl <;> simp
  simp only [hzp, if_false, hp, if_true, hq, Bool.not_true,
    Bool.false_eq_true, if_false]
  match hro : rsplit1 m with
  | none => rfl
  | some (m3, st3) =>
    have hst3 : st3 ≠ "wrapped_module" := by
      intro he
      exact hm (he ▸ lastComp_of_rsplit1 hro)
    simp [hst3]

/-- Core of the quantized wrapped-module path: the scale entry is read,
consumed and deleted, and the quantized weights are stored under
`module + "." + parameter`. -/
theorem convert_sd_q_wrapped {A : Args} {cs res : StateDict} {m : Key}
    {p : String}
    (hq : A.quantized = true)
    (hnd : (cs.map Prod.fst).Nodup)
    (hok : convert_state_dict A cs = .ok res)
    (hmem : (m ++ ["wrapped_module", p]) ∈ cs.map Prod.fst)
    (hp : p = "weight" ∨ p = "bias")
    (hm : lastComp m ≠ some "wrapped_module") :
    ∃ (t fpt : Tensor) (fp_scale : ℚ),
      alget (m ++ ["wrapped_module", p]) cs = some t ∧
      alget (m ++ [scaleSuffix p]) cs = some fpt ∧
      asScalar fpt = some fp_scale ∧
      alget (m ++ [p]) res = some (roundT (clampT
        (-(2 ^ ((if m ≠ ["fc"] then A.weight_bits else FC_CLAMP_BITS) - 1)))
        (2 ^ ((if m ≠ ["fc"] then A.weight_bits else FC_CLAMP_BITS) - 1) - 1)
        (if ¬ m = ["fc"] then
          tmap (fun x => x * A.pow2_round fp_scale
            (if m ≠ ["fc"] then CONV_SCALE_BITS else FC_SCALE_BITS)) t
         else roundT (tmap (fun x => x * fp_scale) t)))) ∧
      alget (m ++ [scaleSuffix p]) res = none := by
  have hkassoc : m ++ ["wrapped_module", p] = (m ++ ["wrapped_module"]) ++ [p] := by
    simp
  have hr : rsplit1 (m ++ ["wrapped_module", p]) =
      some (m ++ ["wrapped_module"], p) := by
    rw [hkassoc]; exact rsplit1_append (by simp)
  unfold convert_state_dict at hok
  obtain ⟨a, a', hstep⟩ := fold_step_ok (cs.map Prod.fst) cs res hok _ hmem
  obtain ⟨m', st', hro', hwr⟩ := step_ok_q_inv hq hstep hr hp
  have hmne : m ≠ [] := by
    intro he
    subst he
    cases hro'
  have hro : rsplit1 (m ++ ["wrapped_module"]) = some (m, "wrapped_module") :=
    rsplit1_append hmne
  have hms := append_singleton_inj ((rsplit1_some hro').1).symm
  obtain ⟨he1, he2⟩ := hms
  subst he2
  obtain ⟨v, htq⟩ := hwr rfl
  rw [he1] at htq
  have hlp : lastComp (m ++ ["wrapped_module", p]) = some p := by
    rw [hkassoc]; exact lastComp_concat _ p
  -- the three target keys are pairwise distinct
  have hxk : (m ++ [p]) ≠ m ++ ["wrapped_module", p] := by
    intro he
    have := congrArg List.length he
    simp at this
  have hxs : (m ++ [p]) ≠ m ++ [scaleSuffix p] := by
    refine ne_of_lastComp ?_
    rw [lastComp_concat, lastComp_concat]
    rcases hp with rfl | rfl <;>
      simp [scaleSuffix_weight, scaleSuffix_bias]
  have hsk : (m ++ [scaleSuffix p]) ≠ m ++ ["wrapped_module", p] := by
    refine ne_of_lastComp ?_
    rw [lastComp_concat, hlp]
    rcases hp with rfl | rfl <;>
      simp [scaleSuffix_weight, scaleSuffix_bias]
  -- neutrality of all other iterations on the out-key
  have hneut_out : ∀ k' ∈ cs.map Prod.fst, k' ≠ m ++ ["wrapped_module", p] →
      ∀ o, redStep A cs k' (m ++ [p]) o = o := by
    intro k' _ hne o
    by_cases hself : k' = m ++ [p]
    · rw [hself]
      exact redStep_self_q hq hp hm hmne
    · refine redStep_neutral ?_
      intro op' p' hr'
      have hk'eq := (rsplit1_some hr').1
      refine ⟨fun _ he => hself he.symm,
        fun hp' => ⟨fun hq' => absurd (hq.symm.trans hq') (by simp), ?_⟩⟩
      intro _ m2 st2 hro2 hst2
      have hop' : op' = m2 ++ [st2] := (rsplit1_some hro2).1
      have hk'full : k' = m2 ++ ["wrapped_module", p'] := by
        rw [hk'eq, hop', hst2]; simp
      refine ⟨?_, ?_, ?_⟩
      · intro he
        obtain ⟨hm2, hp2⟩ := append_singleton_inj he
        apply hne
        rw [hk'full, ← hm2, ← hp2]
      · intro he
        apply hm
        rw [hk'full] at he
        have h5 : m ++ [p] = (m2 ++ ["wrapped_module"]) ++ [p'] := by
          rw [he]; simp
        obtain ⟨hm2, _⟩ := append_singleton_inj h5
        rw [hm2]
        exact lastComp_concat m2 "wrapped_module"
      · refine ne_of_lastComp ?_
        rw [lastComp_concat, lastComp_concat]
        rcases hp with rfl | rfl <;> rcases hp' with rfl | rfl <;>
          simp [scaleSuffix_weight, scaleSuffix_bias]
  -- neutrality of all other iterations on the scale key
  have hneut_scale : ∀ k' ∈ cs.map Prod.fst, k' ≠ m ++ ["wrapped_module", p] →
      ∀ o, redStep A cs k' (m ++ [scaleSuffix p]) o = o := by
    intro k' _ hne o
    refine redStep_neutral ?_
    intro op' p' hr'
    have hlast' : lastComp k' = some p' := lastComp_of_rsplit1 hr'
    refine ⟨?_, fun hp' => ⟨fun hq' => absurd (hq.symm.trans hq') (by simp), ?_⟩⟩
    · intro hzb
      refine ne_of_lastComp ?_
      rw [lastComp_concat, hlast']
      rcases hp with rfl | rfl <;>
        rcases hzb with rfl | rfl | rfl <;>
          simp [scaleSuffix_weight, scaleSuffix_bias]
    · intro _ m2 st2 hro2 hst2
      have hop' : op' = m2 ++ [st2] := (rsplit1_some hro2).1
      have hk'full : k' = m2 ++ ["wrapped_module", p'] := by
        rw [(rsplit1_some hr').1, hop', hst2]; simp
      refine ⟨?_, ?_, ?_⟩
      · refine ne_of_lastComp ?_
        rw [lastComp_concat, lastComp_concat]
        rcases hp with rfl | rfl <;> rcases hp' with rfl | rfl <;>
          simp [scaleSuffix_weight, scaleSuffix_bias]
      · refine ne_of_lastComp ?_
        rw [lastComp_concat, hlast']
        rcases hp with rfl | rfl <;> rcases hp' with rfl | rfl <;>
          simp [scaleSuffix_weight, scaleSuffix_bias]
      · intro he
        obtain ⟨hm2, hsc2⟩ := append_singleton_inj he
        have hpp' : p = p' := by
          rcases hp with rfl | rfl <;> rcases hp' with rfl | rfl <;>
            simp_all [scaleSuffix_weight, scaleSuffix_bias]
        apply hne
        rw [hk'full, ← hm2, ← hpp']
  -- the iteration for the wrapped key itself
  have hzpp : ¬ (p = "w_zero_point" ∨ p = "b_zero_point") := by
    rcases hp with rfl | rfl <;> simp
  have hred_out : redStep A cs (m ++ ["wrapped_module", p]) (m ++ [p])
      (alget (m ++ [p]) cs) = transformQ A cs (m ++ ["wrapped_module", p]) m p := by
    unfold redStep
    simp only [hr, hzpp, if_false, hp, if_true, hq, Bool.not_true,
      Bool.false_eq_true, hro]
    simp [hxs, hxk]
  have hred_scale : redStep A cs (m ++ ["wrapped_module", p])
      (m ++ [scaleSuffix p]) (alget (m ++ [scaleSuffix p]) cs) = none := by
    unfold redStep
    simp only [hr, hzpp, if_false, hp, if_true, hq, Bool.not_true,
      Bool.false_eq_true, hro]
  have hlook_out := fold_lookup (cs.map Prod.fst) cs res hok (m ++ [p])
  have hlook_scale := fold_lookup (cs.map Prod.fst) cs res hok
    (m ++ [scaleSuffix p])
  rw [foldl_act_single _ _ _ _ hmem hnd hneut_out, hred_out] at hlook_out
  rw [foldl_act_single _ _ _ _ hmem hnd hneut_scale, hred_scale] at hlook_scale
  -- unfold transformQ to obtain the stored ingredients
  unfold transformQ at htq hlook_out
  match hg : alget (m ++ ["wrapped_module", p]) cs with
  | none => rw [hg] at htq; cases htq
  | some t =>
    simp only [hg] at htq hlook_out
    match hsc : alget (m ++ [scaleSuffix p]) cs with
    | none => rw [hsc] at htq; cases htq
    | some fpt =>
      simp only [hsc] at htq hlook_out
      match hs : asScalar fpt with
      | none => rw [hs] at htq; cases htq
      | some fp_scale =>
        simp only [hs] at htq hlook_out
        refine ⟨t, fpt, fp_scale, rfl, rfl, hs, ?_, hlook_scale⟩
        rw [hlook_out]
        by_cases hfc : m = ["fc"] <;> simp [hfc]

/-! ## Claims C2, C3, C7 -/

/-- The rational 1/2, given in normal form so that it evaluates without
arithmetic. -/
def half : ℚ := ⟨1, 2, by decide, by decide⟩

/-- Quantized fixture: one wrapped module and its scale. -/
def csQw : StateDict :=
  [(["c", "wrapped_module", "weight"], [[0]]), (["c", "w_scale"], [[2]])]

/-- Checkpoint holding `csQw` with quantizer metadata. -/
def ckQw : Checkpoint :=
  [("quantizer_metadata", .blob 0), ("state_dict", .dict csQw)]

/-- Quantized fixture: a weight key that is not under a wrapped module. -/
def csHalf : StateDict := [(["a", "b", "weight"], [[half]])]

/-- Checkpoint holding `csHalf` with quantizer metadata. -/
def ckHalf : Checkpoint :=
  [("quantizer_metadata", .blob 0), ("state_dict", .dict csHalf)]

/-- **C3 (counterexample)**: in a quantized conversion the scale entry
`c.w_scale` is present in the input but deleted from the output, while the
claim asserts it is present in the converted output alongside the
weight. -/
theorem C3_counterexample :
    convert_checkpoint argsQ ckQw =
      .ok (.file [("state_dict", CVal.dict [(["c", "weight"], [[0]])])]) ∧
    alget (["c", "w_scale"] : Key) csQw = some [[2]] ∧
    alget (["c", "weight"] : Key)
      ([(["c", "weight"], [[0]])] : StateDict) = some [[0]] ∧
    alget (["c", "w_scale"] : Key)
      ([(["c", "weight"], [[0]])] : StateDict) = none := by
  refine ⟨?_, by simp [csQw, alget], by simp [alget], by simp [alget]⟩
  simp +decide [convert_checkpoint, convert_state_dict, step, argsQ, ckQw,
    csQw, alget, alerase, alset, aldel, rsplit1, split1, scaleSuffix,
    asScalar, idPow2, tmap, clampT, roundT, CONV_SCALE_BITS, FC_CLAMP_BITS,
    FC_SCALE_BITS, hasNonzero, flat]

/-- **C3 (amended)**: with `--quantized`, for every wrapped module the
converted weight/bias is stored under `module + "." + parameter`, and the
scale entry `module + ".w_scale"/".b_scale"` is consumed: it is read from
the input and deleted from the output rather than kept alongside the
converted tensor. -/
theorem C3_amended_scales_consumed (A : Args) (cs res : StateDict)
    (m : Key) (p : String)
    (hq : A.quantized = true)
    (hnd : (cs.map Prod.fst).Nodup)
    (hok : convert_state_dict A cs = .ok res)
    (hmem : (m ++ ["wrapped_module", p]) ∈ cs.map Prod.fst)
    (hp : p = "weight" ∨ p = "bias")
    (hm : lastComp m ≠ some "wrapped_module") :
    (∃ v, alget (m ++ [p]) res = some v) ∧
    (∃ fpt, alget (m ++ [scaleSuffix p]) cs = some fpt) ∧
    alget (m ++ [scaleSuffix p]) res = none := by
  obtain ⟨t, fpt, fp, _, hsc, _, hout, hscale⟩ :=
    convert_sd_q_wrapped hq hnd hok hmem hp hm
  exact ⟨⟨_, hout⟩, ⟨fpt, hsc⟩, hscale⟩

/-- Witness for the amended C3 on the concrete quantized fixture. -/
theorem C3_amended_witness :
    (∃ v, alget ((["c"] : Key) ++ ["weight"])
      ([(["c", "weight"], [[0]])] : StateDict) = some v) ∧
    (∃ fpt, alget ((["c"] : Key) ++ [scaleSuffix "weight"]) csQw = some fpt) ∧
    alget ((["c"] : Key) ++ [scaleSuffix "weight"])
      ([(["c", "weight"], [[0]])] : StateDict) = none :=
  C3_amended_scales_consumed argsQ csQw [(["c", "weight"], [[0]])]
    ["c"] "weight" rfl (by simp [csQw])
    (by simp +decide [convert_state_dict, step, argsQ, csQw, alget, alerase,
      alset, aldel, rsplit1, split1, scaleSuffix, asScalar, idPow2, tmap,
      clampT, roundT, CONV_SCALE_BITS, FC_CLAMP_BITS, FC_SCALE_BITS,
      hasNonzero, flat])
    (by simp [csQw]) (Or.inl rfl) (by simp [lastComp])

/-- **C2 (counterexample)**: in a quantized conversion, a weight key that
does not belong to a wrapped module is carried into the output unchanged,
so the output weight tensor can hold the non-integer value 1/2. -/
theorem C2_counterexample :
    convert_checkpoint argsQ ckHalf =
      .ok (.file [("state_dict", CVal.dict csHalf)]) ∧
    alget (["a", "b", "weight"] : Key) csHalf = some [[half]] ∧
    lastComp (["a", "b", "weight"] : Key) = some "weight" ∧
    ¬ isIntTensor [[half]] := by
  refine ⟨?_, by simp [csHalf, alget], by simp [lastComp], by decide⟩
  simp +decide [convert_checkpoint, convert_state_dict, step, argsQ, ckHalf,
    csHalf, alget, alerase, alset, aldel, rsplit1, split1, scaleSuffix,
    asScalar, idPow2, tmap, clampT, roundT, CONV_SCALE_BITS, FC_CLAMP_BITS,
    FC_SCALE_BITS, hasNonzero, flat]

/-- **C2 (amended)**: in non-quantized conversions every weight/bias
tensor of the output is integer-valued and lies in the clamp range of its
module; in quantized conversions this holds for the tensors produced for
wrapped modules (entries not under a wrapped module are carried over
unchanged and need not be integral). -/
theorem C2_amended_int_range (A : Args) (cs res : StateDict)
    (hnd : (cs.map Prod.fst).Nodup)
    (hok : convert_state_dict A cs = .ok res) :
    (A.quantized = false → ∀ (k : Key) (v : Tensor), alget k res = some v →
      (lastComp k = some "weight" ∨ lastComp k = some "bias") →
      ∃ (module : String) (rest : Key), k = module :: rest ∧
        isIntTensor v ∧
        inRangeTensor (if module ≠ "fc" then A.weight_bits else FC_CLAMP_BITS) v) ∧
    (A.quantized = true → ∀ (m : Key) (p : String),
      (m ++ ["wrapped_module", p]) ∈ cs.map Prod.fst →
      (p = "weight" ∨ p = "bias") → lastComp m ≠ some "wrapped_module" →
      ∃ v, alget (m ++ [p]) res = some v ∧ isIntTensor v ∧
        inRangeTensor (if m ≠ ["fc"] then A.weight_bits else FC_CLAMP_BITS) v) := by
  constructor
  · intro hq k v hv hwb
    by_cases hmem : k ∈ cs.map Prod.fst
    · obtain ⟨t, ht⟩ := alget_mem hmem
      obtain ⟨module, rest, s, hkeq, hsf, hval⟩ :=
        convert_sd_nq_value hq hnd hok ht hwb
      have hveq := Option.some.inj (hv.symm.trans hval)
      subst hveq
      obtain ⟨h1, h2⟩ := roundClamp_ok
        (if module ≠ "fc" then A.weight_bits else FC_CLAMP_BITS)
        (tmap (fun x =>
          (2 ^ ((if module ≠ "fc" then A.weight_bits else FC_CLAMP_BITS) - 1) * s)
            * x) t)
      exact ⟨module, rest, hkeq, h1, h2⟩
    · exfalso
      have hnone : alget k cs = none := by
        cases hg : alget k cs with
        | none => rfl
        | some t => exact absurd (alget_mem_iff.mpr (by simp [hg])) hmem
      unfold convert_state_dict at hok
      have hlook := fold_lookup (cs.map Prod.fst) cs res hok k
      rw [foldl_act_id _ _ _
        (fun k' hk' o => redStep_nq_ne hq (by rintro rfl; exact hmem hk')),
        hnone] at hlook
      rw [hlook] at hv
      cases hv
  · intro hq m p hmem hp hm
    obtain ⟨t, fpt, fp, _, _, _, hout, _⟩ :=
      convert_sd_q_wrapped hq hnd hok hmem hp hm
    obtain ⟨h1, h2⟩ := roundClamp_ok
      (if m ≠ ["fc"] then A.weight_bits else FC_CLAMP_BITS)
      (if ¬ m = ["fc"] then
        tmap (fun x => x * A.pow2_round fp
          (if m ≠ ["fc"] then CONV_SCALE_BITS else FC_SCALE_BITS)) t
       else roundT (tmap (fun x => x * fp) t))
    exact ⟨_, hout, h1, h2⟩

/-- Witness for the amended C2 on a concrete non-quantized conversion. -/
theorem C2_amended_witness :
    ∃ (module : String) (rest : Key),
      (["fc", "weight"] : Key) = module :: rest ∧
      isIntTensor [[0]] ∧
      inRangeTensor (if module ≠ "fc" then argsNQ.weight_bits else FC_CLAMP_BITS)
        [[0]] :=
  (C2_amended_int_range argsNQ csNQ [(["fc", "weight"], [[0]])]
    (by simp [csNQ])
    (by simp +decide [convert_state_dict, step, argsNQ, csNQ, alget, alerase,
      alset, aldel, rsplit1, split1, fc_sat_fn, get_const, tmap, clampT,
      roundT, scaleSuffix, FC_CLAMP_BITS, hasNonzero, flat])).1
    rfl ["fc", "weight"] [[0]] (by simp [alget]) (Or.inl (by simp [lastComp]))

/-- **C7 (counterexample)**: the state-dict frame claim fails in quantized
mode: `c.w_scale` has a last component outside the five listed kinds, yet
it is not carried over (it is consumed by the wrapped module). -/
theorem C7_counterexample :
    convert_checkpoint argsQ ckQw =
      .ok (.file [("state_dict", CVal.dict [(["c", "weight"], [[0]])])]) ∧
    (lastComp (["c", "w_scale"] : Key) ≠ some "weight" ∧
     lastComp (["c", "w_scale"] : Key) ≠ some "bias" ∧
     lastComp (["c", "w_scale"] : Key) ≠ some "w_zero_point" ∧
     lastComp (["c", "w_scale"] : Key) ≠ some "b_zero_point" ∧
     lastComp (["c", "w_scale"] : Key) ≠ some "base_b_q") ∧
    alget (["c", "w_scale"] : Key) csQw = some [[2]] ∧
    alget (["c", "w_scale"] : Key)
      ([(["c", "weight"], [[0]])] : StateDict) = none := by
  refine ⟨?_, by simp [lastComp], by simp [csQw, alget], by simp [alget]⟩
  simp +decide [convert_checkpoint, convert_state_dict, step, argsQ, ckQw,
    csQw, alget, alerase, alset, aldel, rsplit1, split1, scaleSuffix,
    asScalar, idPow2, tmap, clampT, roundT, CONV_SCALE_BITS, FC_CLAMP_BITS,
    FC_SCALE_BITS, hasNonzero, flat]

/-- **C7 (amended)**: for every non-embedded conversion, all top-level
entries other than `state_dict` (and `quantizer_metadata` when
`--quantized`) are written out unchanged; and within the state dict every
entry whose last component is none of `weight`, `bias`, `w_zero_point`,
`b_zero_point`, `base_b_q` — nor, in quantized mode, `w_scale`/`b_scale`,
which wrapped modules consume — is carried over unchanged. -/
theorem C7_amended_frame (A : Args) (ck out : Checkpoint)
    (hok : convert_checkpoint A ck = .ok (.file out)) :
    (∀ x : String, x ≠ "state_dict" →
      (A.quantized = true → x ≠ "quantizer_metadata") →
      alget x out = alget x ck) ∧
    (∀ cs : StateDict, alget "state_dict" ck = some (CVal.dict cs) →
      ∃ res, convert_state_dict A cs = .ok res ∧
        alget "state_dict" out = some (CVal.dict res) ∧
        ∀ k : Key,
          lastComp k ≠ some "weight" → lastComp k ≠ some "bias" →
          lastComp k ≠ some "w_zero_point" →
          lastComp k ≠ some "b_zero_point" →
          lastComp k ≠ some "base_b_q" →
          (A.quantized = true →
            lastComp k ≠ some "w_scale" ∧ lastComp k ≠ some "b_scale") →
          alget k res = alget k cs) := by
  obtain ⟨ck1, cs1, new, hphase, hsd1, hcv, hout⟩ := convert_ok_inv hok
  rcases hout with ⟨_, hr⟩ | ⟨_, hr⟩; swap
  · cases hr
  have hout_eq : out = alset "state_dict" (CVal.dict new) ck1 :=
    ConvOut.file.inj hr
  constructor
  · intro x hxs hxm
    rw [hout_eq, alget_alset, if_neg hxs]
    rcases hphase with ⟨_, rfl⟩ | ⟨hq, _, rfl⟩
    · rfl
    · rw [alget_alerase, if_neg (hxm hq)]
  · intro cs hcs
    have hcc : cs1 = cs := by
      rcases hphase with ⟨_, rfl⟩ | ⟨hq, _, rfl⟩
      · have := hsd1.symm.trans hcs
        simpa using this
      · rw [alget_alerase, if_neg (by simp : ("state_dict" : String) ≠
          "quantizer_metadata")] at hsd1
        have := hsd1.symm.trans hcs
        simpa using this
    subst hcc
    refine ⟨new, hcv, by rw [hout_eq, alget_alset]; simp, ?_⟩
    intro k hw hb hwz hbz hbq hsc
    unfold convert_state_dict at hcv
    have hlook := fold_lookup (cs1.map Prod.fst) cs1 new hcv k
    rw [foldl_act_id _ _ _ ?_] at hlook
    · exact hlook
    · intro k' hk' o
      by_cases hself : k' = k
      · subst hself
        exact redStep_neutral (fun op p hr' => by
          have hlp : lastComp k' = some p := lastComp_of_rsplit1 hr'
          refine ⟨?_, ?_⟩
          · rintro (rfl | rfl | rfl) <;>
              [exact absurd hlp hwz; exact absurd hlp hbz; exact absurd hlp hbq]
          · rintro (rfl | rfl) <;>
              [exact absurd hlp hw; exact absurd hlp hb])
      · exact redStep_neutral_simple (Ne.symm hself) hw hb
          (fun hq => (hsc hq).1) (fun hq => (hsc hq).2)

/-- Non-quantized fixture with an extra top-level entry and an untouched
state-dict entry. -/
def csF : StateDict :=
  [(["fc", "weight"], [[0]]), (["bn", "running_mean"], [[half]])]

/-- Checkpoint holding `csF` plus an optimizer blob. -/
def ckF : Checkpoint := [("state_dict", .dict csF), ("optimizer", .blob 7)]

/-- Witness for the amended C7 on `ckF`: the optimizer entry and the
`running_mean` entry survive unchanged. -/
theorem C7_amended_witness :
    alget "optimizer" ckF = alget "optimizer" ckF ∧
    ∃ res, convert_state_dict argsNQ csF = .ok res ∧
      alget "state_dict" ckF = some (CVal.dict res) ∧
      alget (["bn", "running_mean"] : Key) res =
        alget (["bn", "running_mean"] : Key) csF := by
  have hok : convert_checkpoint argsNQ ckF = .ok (.file ckF) := by
    simp +decide [convert_checkpoint, convert_state_dict, step, argsNQ,
      ckF, csF, alget, alerase, alset, aldel, rsplit1, split1, fc_sat_fn,
      get_const, tmap, clampT, roundT, scaleSuffix, FC_CLAMP_BITS,
      hasNonzero, flat]
  constructor
  · exact (C7_amended_frame argsNQ ckF ckF hok).1 "optimizer"
      (by decide) (fun _ => by decide)
  · obtain ⟨res, h1, h2, h3⟩ := (C7_amended_frame argsNQ ckF ckF hok).2
      csF (by simp [ckF, alget])
    exact ⟨res, h1, h2, h3 ["bn", "running_mean"]
      (by simp [lastComp]) (by simp [lastComp]) (by simp [lastComp])
      (by simp [lastComp]) (by simp [lastComp])
      (by intro h; exact absurd h (by decide))⟩

/-! ## Claim C4 -/

/-- The claim's formula for the `STD` statistic (refinement comparison
definition, written from the claim's words). -/
def spec_std_stat (sq : ℚ → ℚ) (t : Tensor) : Option ℚ :=
  match tmin t, tmax t, tmean t, tstd sq t with
  | some mn, some mx, some mean, some std =>
    some (max |max mn (mean - 2 * std)| |min mx (mean + 2 * std)|)
  | _, _, _, _ => none

/-- The claim's formula for the `MAX` statistic. -/
def spec_max_stat (t : Tensor) : Option ℚ :=
  match tmin t, tmax t with
  | some mn, some mx => some (max |mn| |mx|)
  | _, _ => none

/-- The claim's formula for the `AVGMAX` statistic: the larger of the
absolute means of the per-slice minima and maxima. -/
def spec_avgmax_stat (t : Tensor) : Option ℚ :=
  match omap List.min? t, omap List.max? t with
  | some mins, some maxs =>
    if t.length = 0 then none
    else some (max |mins.sum / t.length| |maxs.sum / t.length|)
  | _, _ => none

/-- The claim's constant statistic for `SCALE` and for `fc`. -/
def spec_scale_stat (_ : Tensor) : Option ℚ := some (6372803137 / 10000000000)

/-- **C4**: the `--clip-mode` dispatch selects exactly the claimed
statistics (`STD` with two standard deviations, `MAX`, `AVGMAX`, and the
constant 0.6372803137 for the default `SCALE`), and `fc` weights/biases
always use the constant, independent of clip mode and of the host
square root. -/
theorem C4_clip_mode_statistics (sq : ℚ → ℚ) (t : Tensor) :
    sat_fn .STD sq t = spec_std_stat sq t ∧
    sat_fn .MAX sq t = spec_max_stat t ∧
    sat_fn .AVGMAX sq t = spec_avgmax_stat t ∧
    sat_fn .SCALE sq t = spec_scale_stat t ∧
    fc_sat_fn t = spec_scale_stat t ∧
    (∀ (A : Args) (cm' : ClipMode) (sq' : ℚ → ℚ) (cs : StateDict)
      (k : Key) (rest : Key), split1 k = some ("fc", rest) →
      transformNQ A cs k =
        transformNQ { A with clip_mode := cm', sqrt := sq' } cs k) := by
  refine ⟨?_, ?_, ?_, rfl, ?_, ?_⟩
  · show mean_n_stds_max_abs sq t 2 = spec_std_stat sq t
    unfold mean_n_stds_max_abs spec_std_stat
    rw [if_neg (by norm_num : ¬ ((2:ℤ) ≤ 0))]
    cases hmean : tmean t <;> cases hstd : tstd sq t <;>
      cases hmn : tmin t <;> cases hmx : tmax t <;> simp
  · show max_max t = spec_max_stat t
    unfold max_max spec_max_stat
    cases hmn : tmin t <;> cases hmx : tmax t <;> simp
  · show avg_max t = spec_avgmax_stat t
    unfold avg_max spec_avgmax_stat
    cases h1 : omap List.min? t <;> cases h2 : omap List.max? t <;> simp
  · show get_const t = spec_scale_stat t
    unfold get_const spec_scale_stat magic_scale
    rfl
  · intro A cm' sq' cs k rest hsp
    unfold transformNQ
    simp [hsp]

/-- Witness for C4: the `fc` value is independent of the clip mode at a
concrete input. -/
theorem C4_witness :
    transformNQ argsNQ csNQ ["fc", "weight"] =
      transformNQ { argsNQ with clip_mode := .MAX, sqrt := idSqrt }
        csNQ ["fc", "weight"] :=
  (C4_clip_mode_statistics idSqrt [[0]]).2.2.2.2.2 argsNQ .MAX idSqrt csNQ
    ["fc", "weight"] ["weight"] (by simp [split1])

/-! ## Training loop (src/train.py) -/

/-- Per-epoch measurements the loop obtains from the model and the
validation pass (`distiller.model_params_stats` and `validate`). -/
structure EpochStats where
  top1 : ℚ
  top5 : ℚ
  sparsity : ℚ
  params_nnz_cnt : ℤ

/-- An entry of `perf_scores_history` (train.py lines 662-665); note the
stored `params_nnz_cnt` is the negated count. -/
structure Score where
  params_nnz_cnt : ℤ
  sparsity : ℚ
  top1 : ℚ
  top5 : ℚ
  epoch : ℕ
deriving DecidableEq

/-- The sort key `attrgetter('params_nnz_cnt', 'top1', 'top5', 'epoch')`,
compared lexicographically as Python compares tuples. -/
def scoreKey (a : Score) : ℤ ×ₗ ℚ ×ₗ ℚ ×ₗ ℕ :=
  toLex (a.params_nnz_cnt, toLex (a.top1, toLex (a.top5, a.epoch)))

/-- `≤` on the sort key. -/
def scoreKeyLe (a b : Score) : Bool := decide (scoreKey a ≤ scoreKey b)

/-- `≥` on the sort key; `reverse=True` sorts descending, i.e. ascending
by this comparator (stably, as Python's sort is stable). -/
def scoreKeyGe (a b : Score) : Bool := scoreKeyLe b a

theorem scoreKeyLe_refl (a : Score) : scoreKeyLe a a = true := by
  simp [scoreKeyLe]

theorem scoreKeyGe_trans (a b c : Score) (h1 : scoreKeyGe a b)
    (h2 : scoreKeyGe b c) : scoreKeyGe a c := by
  simp only [scoreKeyGe, scoreKeyLe, decide_eq_true_iff] at h1 h2 ⊢
  exact le_trans h2 h1

theorem scoreKeyGe_total (a b : Score) : scoreKeyGe a b || scoreKeyGe b a := by
  simp only [scoreKeyGe, scoreKeyLe, Bool.or_eq_true, decide_eq_true_iff]
  exact le_total _ _

/-- `update_training_scores_history` (train.py lines 658-669): append the
epoch's score and re-sort the history best-first (descending by
`scoreKey`, stable). -/
def update_training_scores_history (perf_scores_history : List Score)
    (model : EpochStats) (top1 top5 : ℚ) (epoch num_best_scores : ℕ) :
    List Score :=
  (perf_scores_history ++
    [({ params_nnz_cnt := -model.params_nnz_cnt, sparsity := model.sparsity,
        top1 := top1, top5 := top5, epoch := epoch } : Score)]).mergeSort
    scoreKeyGe

/-- Observable events of the main training loop. -/
inductive TEvent where
  | on_epoch_begin (epoch : ℕ)
  | train_pass (epoch : ℕ)
  | validate_pass (epoch : ℕ)
  | on_epoch_end (epoch : ℕ)
  | save_checkpoint (epoch : ℕ) (is_best : Bool)
  | test_run
deriving DecidableEq

/-- Does an event belong to epoch `e`? -/
def belongsTo (e : ℕ) : TEvent → Bool
  | .on_epoch_begin e2 => e2 == e
  | .train_pass e2 => e2 == e
  | .validate_pass e2 => e2 == e
  | .on_epoch_end e2 => e2 == e
  | .save_checkpoint e2 _ => e2 == e
  | .test_run => false

/-- The events of one epoch body (train.py lines 340-382), in program
order: `on_epoch_begin` (when a scheduler is configured), the training
pass, the validation pass, `on_epoch_end` (when a scheduler is
configured), then the checkpoint save. -/
def epochEvents (sched : Bool) (epoch : ℕ) (is_best : Bool) : List TEvent :=
  (if sched then [.on_epoch_begin epoch] else []) ++
  [.train_pass epoch, .validate_pass epoch] ++
  (if sched then [.on_epoch_end epoch] else []) ++
  [.save_checkpoint epoch is_best]

/-- One iteration of the epoch loop: update the score history, compute
`is_best = (epoch == perf_scores_history[0].epoch)` (line 376), and emit
the epoch's events. -/
def epochStep (sched : Bool) (stats : ℕ → EpochStats) (num_best : ℕ)
    (st : List Score × List TEvent) (epoch : ℕ) :
    Except PyErr (List Score × List TEvent) :=
  let hist := update_training_scores_history st.1 (stats epoch)
    (stats epoch).top1 (stats epoch).top5 epoch num_best
  match hist.head? with
  | none => .error .keyError
  | some top =>
    .ok (hist, st.2 ++ epochEvents sched epoch (epoch == top.epoch))

/-- The main loop (train.py lines 334-385): refuse an empty epoch range,
run the epochs from `start_epoch` to `ending_epoch`, then the final test
pass. -/
def trainingLoop (sched : Bool) (stats : ℕ → EpochStats) (num_best : ℕ)
    (start_epoch ending_epoch : ℕ) :
    Except PyErr (List Score × List TEvent) :=
  if start_epoch ≥ ending_epoch then
    .error (.valueError "Epochs parameter is too low. Nothing to do.")
  else
    match (List.range' start_epoch (ending_epoch - start_epoch)).foldlM
        (epochStep sched stats num_best) ([], []) with
    | .error e => .error e
    | .ok r => .ok (r.1, r.2 ++ [.test_run])

/-! ## Claim C10 -/

/-- The score record appended for one epoch (train.py lines 662-665). -/
def newScore (model : EpochStats) (top1 top5 : ℚ) (epoch : ℕ) : Score :=
  { params_nnz_cnt := -model.params_nnz_cnt, sparsity := model.sparsity,
    top1 := top1, top5 := top5, epoch := epoch }

theorem update_eq (h : List Score) (m : EpochStats) (t1 t5 : ℚ)
    (e n : ℕ) : update_training_scores_history h m t1 t5 e n =
      (h ++ [newScore m t1 t5 e]).mergeSort scoreKeyGe := rfl

/-- **C10**: after every call to `update_training_scores_history` the
history is sorted descending by the key
`(params_nnz_cnt, top1, top5, epoch)`, so its first element is the best
score seen so far; and the loop marks a checkpoint `is_best` exactly when
the just-finished epoch equals the epoch of that first element. -/
theorem C10_scores_sorted_and_best
    (sched : Bool) (stats : ℕ → EpochStats) (num_best : ℕ)
    (h0 : List Score) (t0 : List TEvent) (epoch : ℕ)
    (h2 : List Score) (t2 : List TEvent)
    (hstep : epochStep sched stats num_best (h0, t0) epoch = .ok (h2, t2)) :
    h2 = update_training_scores_history h0 (stats epoch) (stats epoch).top1
      (stats epoch).top5 epoch num_best ∧
    List.Pairwise (fun a b => scoreKeyGe a b = true) h2 ∧
    ∃ top, h2.head? = some top ∧
      (∀ x ∈ h0, scoreKeyLe x top = true) ∧
      scoreKeyLe (newScore (stats epoch) (stats epoch).top1
        (stats epoch).top5 epoch) top = true ∧
      t2 = t0 ++ epochEvents sched epoch (epoch == top.epoch) := by
  simp only [epochStep] at hstep
  set hist := update_training_scores_history h0 (stats epoch)
    (stats epoch).top1 (stats epoch).top5 epoch num_best with hhist
  clear_value hist
  have hsorted : List.Pairwise (fun a b => scoreKeyGe a b = true) hist := by
    rw [hhist, update_eq]
    exact List.sorted_mergeSort scoreKeyGe_trans scoreKeyGe_total _
  have hmem : ∀ x ∈ h0 ++ [newScore (stats epoch) (stats epoch).top1
      (stats epoch).top5 epoch], x ∈ hist := by
    intro x hx
    rw [hhist, update_eq, List.mem_mergeSort]
    exact hx
  match htop : hist.head? with
  | none => rw [htop] at hstep; exact absurd hstep (by simp)
  | some top =>
    rw [htop] at hstep
    obtain ⟨he1, he2⟩ := Prod.mk.inj (Except.ok.inj hstep)
    subst he1
    subst he2
    obtain ⟨rest, hrest⟩ : ∃ rest, hist = top :: rest := by
      cases hh : hist with
      | nil => rw [hh] at htop; cases htop
      | cons a rest =>
        rw [hh] at htop
        simp only [List.head?_cons, Option.some.injEq] at htop
        exact ⟨rest, by rw [htop]⟩
    have hmax : ∀ x ∈ hist, scoreKeyLe x top = true := by
      intro x hx
      rw [hrest] at hx hsorted
      rcases List.mem_cons.mp hx with rfl | hx2
      · exact scoreKeyLe_refl _
      · exact (List.pairwise_cons.mp hsorted).1 x hx2
    exact ⟨rfl, hsorted, top, htop,
      fun x hx => hmax x (hmem x (List.mem_append_left _ hx)),
      hmax _ (hmem _ (List.mem_append_right _ (by simp))), rfl⟩

/-- Witness for C10 on a one-epoch history. -/
theorem C10_witness :
    ∃ (h2 : List Score) (t2 : List TEvent),
      epochStep true (fun _ => ⟨1, 1, 0, 5⟩) 1 ([], []) 0 = .ok (h2, t2) ∧
      List.Pairwise (fun a b => scoreKeyGe a b = true) h2 := by
  have hstep : epochStep true (fun _ => (⟨1, 1, 0, 5⟩ : EpochStats)) 1
      ([], []) 0 =
      .ok ([newScore ⟨1, 1, 0, 5⟩ 1 1 0],
           [] ++ epochEvents true 0 (0 == (0 : ℕ))) := by
    unfold epochStep
    rw [update_eq]
    simp [newScore]
  refine ⟨_, _, hstep, ?_⟩
  exact (C10_scores_sorted_and_best true (fun _ => ⟨1, 1, 0, 5⟩) 1 [] [] 0
    _ _ hstep).2.1

/-! ## Claim C5 -/

theorem epochEvents_filter_self (sched : Bool) (e : ℕ) (b : Bool) :
    (epochEvents sched e b).filter (belongsTo e) = epochEvents sched e b := by
  cases sched <;> simp [epochEvents, belongsTo]

theorem epochEvents_filter_other {e e2 : ℕ} (h : e2 ≠ e) (sched : Bool)
    (b : Bool) : (epochEvents sched e2 b).filter (belongsTo e) = [] := by
  cases sched <;> simp [epochEvents, belongsTo, h]

theorem epochStep_ok_shape {sched : Bool} {stats : ℕ → EpochStats}
    {num_best : ℕ} {h0 : List Score} {t0 : List TEvent} {e : ℕ}
    {st1 : List Score × List TEvent}
    (h : epochStep sched stats num_best (h0, t0) e = .ok st1) :
    ∃ (hist : List Score) (b : Bool),
      st1 = (hist, t0 ++ epochEvents sched e b) := by
  simp only [epochStep] at h
  match htop : (update_training_scores_history h0 (stats e) (stats e).top1
      (stats e).top5 e num_best).head? with
  | none => rw [htop] at h; exact absurd h (by simp)
  | some top =>
    rw [htop] at h
    exact ⟨_, _, (Except.ok.inj h).symm⟩

theorem loop_filter_out {sched : Bool} {stats : ℕ → EpochStats}
    {num_best : ℕ} {e : ℕ} :
    ∀ (es : List ℕ) (h0 : List Score) (t0 : List TEvent)
      (hh : List Score) (tt : List TEvent),
    es.foldlM (epochStep sched stats num_best) (h0, t0) = .ok (hh, tt) →
    e ∉ es →
    tt.filter (belongsTo e) = t0.filter (belongsTo e) := by
  intro es
  induction es with
  | nil =>
    intro h0 t0 hh tt h _
    simp only [List.foldlM_nil, pure, Except.pure] at h
    obtain ⟨_, rfl⟩ := Prod.mk.inj (Except.ok.inj h)
    rfl
  | cons e0 es ih =>
    intro h0 t0 hh tt h hne
    rw [List.foldlM_cons] at h
    match hstep : epochStep sched stats num_best (h0, t0) e0 with
    | .error err => rw [hstep] at h; simp [Bind.bind, Except.bind] at h
    | .ok st1 =>
      rw [hstep] at h
      simp only [Bind.bind, Except.bind] at h
      obtain ⟨hist1, b1, rfl⟩ := epochStep_ok_shape hstep
      have hne0 : e0 ≠ e := fun he => hne (by simp [he])
      have hnes : e ∉ es := fun he => hne (by simp [he])
      rw [ih hist1 _ hh tt h hnes, List.filter_append,
        epochEvents_filter_other hne0, List.append_nil]

theorem loop_filter_in {sched : Bool} {stats : ℕ → EpochStats}
    {num_best : ℕ} {e : ℕ} :
    ∀ (es : List ℕ) (h0 : List Score) (t0 : List TEvent)
      (hh : List Score) (tt : List TEvent),
    es.foldlM (epochStep sched stats num_best) (h0, t0) = .ok (hh, tt) →
    e ∈ es → es.Nodup →
    ∃ b, tt.filter (belongsTo e) =
      t0.filter (belongsTo e) ++ epochEvents sched e b := by
  intro es
  induction es with
  | nil => intro h0 t0 hh tt _ hmem; cases hmem
  | cons e0 es ih =>
    intro h0 t0 hh tt h hmem hnd
    rw [List.foldlM_cons] at h
    match hstep : epochStep sched stats num_best (h0, t0) e0 with
    | .error err => rw [hstep] at h; simp [Bind.bind, Except.bind] at h
    | .ok st1 =>
      rw [hstep] at h
      simp only [Bind.bind, Except.bind] at h
      obtain ⟨hist1, b1, rfl⟩ := epochStep_ok_shape hstep
      rcases List.mem_cons.mp hmem with rfl | hmem2
      · have hnes : e ∉ es := (List.nodup_cons.mp hnd).1
        refine ⟨b1, ?_⟩
        rw [loop_filter_out es hist1 _ hh tt h hnes, List.filter_append,
          epochEvents_filter_self]
      · have hne0 : e0 ≠ e := by
          rintro rfl
          exact (List.nodup_cons.mp hnd).1 hmem2
        obtain ⟨b, hb⟩ := ih hist1 _ hh tt h hmem2 (List.nodup_cons.mp hnd).2
        refine ⟨b, ?_⟩
        rw [hb, List.filter_append, epochEvents_filter_other hne0,
          List.append_nil]

/-- **C5**: for every epoch of the main loop with a compression scheduler
configured, the epoch's events are exactly `on_epoch_begin`, the training
pass, the validation pass, `on_epoch_end`, then the checkpoint save, in
this order — so `on_epoch_begin` precedes the training pass,
`on_epoch_end` follows the validation pass, and a checkpoint is saved at
the end of every epoch, after `on_epoch_end`. -/
theorem C5_epoch_ordering (stats : ℕ → EpochStats)
    (num_best start_e end_e : ℕ) (hist : List Score) (tr : List TEvent)
    (e : ℕ)
    (hok : trainingLoop true stats num_best start_e end_e = .ok (hist, tr))
    (h1 : start_e ≤ e) (h2 : e < end_e) :
    ∃ b, tr.filter (belongsTo e) =
      [.on_epoch_begin e, .train_pass e, .validate_pass e,
       .on_epoch_end e, .save_checkpoint e b] ∧
      List.Sublist [TEvent.on_epoch_begin e, .train_pass e, .validate_pass e,
        .on_epoch_end e, .save_checkpoint e b] tr := by
  unfold trainingLoop at hok
  rw [if_neg (by omega)] at hok
  match hfold : (List.range' start_e (end_e - start_e)).foldlM
      (epochStep true stats num_best) ([], []) with
  | .error err => rw [hfold] at hok; exact absurd hok (by simp)
  | .ok r =>
    rw [hfold] at hok
    obtain ⟨hr1, hr2⟩ := Prod.mk.inj (Except.ok.inj hok)
    have hmem : e ∈ List.range' start_e (end_e - start_e) := by
      rw [List.mem_range']
      exact ⟨e - start_e, by omega, by omega⟩
    obtain ⟨b, hfilt⟩ := loop_filter_in _ _ _ _ _ hfold hmem
      (List.nodup_range' _ _)
    have hmain : tr.filter (belongsTo e) =
        [.on_epoch_begin e, .train_pass e, .validate_pass e,
         .on_epoch_end e, .save_checkpoint e b] := by
      rw [← hr2, List.filter_append, hfilt]
      simp [belongsTo, epochEvents]
    refine ⟨b, hmain, ?_⟩
    have hsub := List.filter_sublist (p := belongsTo e) tr
    rw [hmain] at hsub
    exact hsub

/-- Witness for C5 on a concrete one-epoch run. -/
theorem C5_witness :
    ∃ b, ([TEvent.on_epoch_begin 0, .train_pass 0, .validate_pass 0,
        .on_epoch_end 0, .save_checkpoint 0 true,
        .test_run].filter (belongsTo 0)) =
      [.on_epoch_begin 0, .train_pass 0, .validate_pass 0,
       .on_epoch_end 0, .save_checkpoint 0 b] ∧
      List.Sublist [TEvent.on_epoch_begin 0, .train_pass 0, .validate_pass 0,
        .on_epoch_end 0, .save_checkpoint 0 b]
        [TEvent.on_epoch_begin 0, .train_pass 0, .validate_pass 0,
         .on_epoch_end 0, .save_checkpoint 0 true, .test_run] :=
  C5_epoch_ordering (fun _ => ⟨1, 1, 0, 5⟩) 1 0 1
    [newScore ⟨1, 1, 0, 5⟩ 1 1 0]
    [TEvent.on_epoch_begin 0, .train_pass 0, .validate_pass 0,
     .on_epoch_end 0, .save_checkpoint 0 true, .test_run] 0
    (by simp [trainingLoop, List.range', epochStep, update_eq, newScore,
      epochEvents])
    (by omega) (by omega)

end Ai84ize
